import Mathlib

/-!
Verification of the oba-services core against its specification.

The development shallowly embeds the Rust sources:
  src/shared/src/balancer/event_handler.rs  (event-sourced pool registry)
  src/orderbook/src/orderbook.rs            (order book state machine)
  src/solver/src/http_solver.rs             (auction model translation)
  src/solver/src/settlement_simulation.rs   (settlement simulation)

Rust HashMap values are modelled as association lists with unique keys,
HashSet values as duplicate-free lists; machine integers are Nat.
-/

/-! ## Association-list primitives modelling HashMap / HashSet -/

/-- Lookup of a key in an association list, mirroring HashMap::get. -/
def alookup {κ ν : Type} [DecidableEq κ] : List (κ × ν) → κ → Option ν
  | [], _ => none
  | (k', v) :: rest, k => if k' = k then some v else alookup rest k

/-- Insert-or-replace of a key binding, mirroring HashMap::insert and
entry().or_insert() followed by a field update. -/
def aupd {κ ν : Type} [DecidableEq κ] : List (κ × ν) → κ → ν → List (κ × ν)
  | [], k, v => [(k, v)]
  | (k', v') :: rest, k, v =>
    if k' = k then (k, v) :: rest else (k', v') :: aupd rest k v

/-- Removal of a key binding, mirroring HashMap::remove. -/
def aerase {κ ν : Type} [DecidableEq κ] : List (κ × ν) → κ → List (κ × ν)
  | [], _ => []
  | (k', v') :: rest, k => if k' = k then rest else (k', v') :: aerase rest k

/-- Keys of an association list. -/
def akeys {κ ν : Type} (l : List (κ × ν)) : List κ := l.map Prod.fst

/-- Set insertion, mirroring HashSet::insert. -/
def slinsert {α : Type} [DecidableEq α] (l : List α) (a : α) : List α :=
  if a ∈ l then l else l ++ [a]

/-! ## Pool registry data model (src/shared/src/balancer/event_handler.rs) -/

/-- 20-byte Ethereum address, modelled as a natural number below 2 ^ 160. -/
abbrev H160 := Nat

/-- 32-byte hash / pool identifier, modelled as a natural number. -/
abbrev H256 := Nat

/-- The three pool specialization settings. -/
inductive PoolSpecialization : Type
  | General
  | MinimalSwapInfo
  | TwoToken
deriving DecidableEq, Repr

/-- PoolSpecialization::new: parse from a u8, values above 2 are errors. -/
def PoolSpecialization.new (specialization : Nat) : Option PoolSpecialization :=
  match specialization with
  | 0 => some .General
  | 1 => some .MinimalSwapInfo
  | 2 => some .TwoToken
  | _ => none

/-- The PoolRegistered event payload. -/
structure PoolRegistered where
  pool_id : H256
  pool_address : H160
  specialization : PoolSpecialization
deriving DecidableEq, Repr

/-- The TokensRegistered event payload. -/
structure TokensRegistered where
  pool_id : H256
  tokens : List H160
deriving DecidableEq, Repr

/-- A well-formed balancer event, after conversion from the contract event. -/
inductive BalancerEvent : Type
  | poolRegistered (e : PoolRegistered)
  | tokensRegistered (e : TokensRegistered)
deriving DecidableEq, Repr

/-- A fully materialized pool. -/
structure RegisteredPool where
  pool_id : H256
  pool_address : H160
  specialization : PoolSpecialization
  tokens : List H160
  block_created : Nat
deriving DecidableEq, Repr

/-- WeightedPoolBuilder: temporary storage for a pool with incomplete
constructor data. -/
structure WeightedPoolBuilder where
  pool_registration : Option PoolRegistered
  tokens_registration : Option TokensRegistered
  block_created : Nat
deriving DecidableEq, Repr

/-- EventIndex: position of an event in the chain. -/
structure EventIndex where
  block_number : Nat
  log_index : Nat
deriving DecidableEq, Repr

/-- WeightedPoolBuilder::into_pool: succeeds exactly when both registrations
are present; none models the anyhow error. -/
def WeightedPoolBuilder.into_pool (b : WeightedPoolBuilder) : Option RegisteredPool :=
  match b.pool_registration, b.tokens_registration with
  | some pr, some tr =>
    some { pool_id := pr.pool_id, pool_address := pr.pool_address,
           specialization := pr.specialization, tokens := tr.tokens,
           block_created := b.block_created }
  | _, _ => none

/-- The PoolRegistry with its three indexes. -/
structure PoolRegistry where
  pools_by_token : List (H160 × List H256)
  pools : List (H256 × RegisteredPool)
  pending_pools : List (H256 × WeightedPoolBuilder)
deriving DecidableEq, Repr

/-- The empty registry. -/
def PoolRegistry.empty : PoolRegistry := ⟨[], [], []⟩

/-- PoolRegistry::insert_pool: look up or insert the pending builder keyed by
pool_id, then set the pool registration; block_created is only set when the
entry is first created. -/
def PoolRegistry.insert_pool (r : PoolRegistry) (index : EventIndex)
    (registration : PoolRegistered) : PoolRegistry :=
  let b := (alookup r.pending_pools registration.pool_id).getD
    { pool_registration := none, tokens_registration := none,
      block_created := index.block_number }
  let b' := { b with pool_registration := some registration }
  { r with pending_pools := aupd r.pending_pools registration.pool_id b' }

/-- PoolRegistry::insert_token_data: as insert_pool, setting the tokens
registration. -/
def PoolRegistry.insert_token_data (r : PoolRegistry) (index : EventIndex)
    (registration : TokensRegistered) : PoolRegistry :=
  let b := (alookup r.pending_pools registration.pool_id).getD
    { pool_registration := none, tokens_registration := none,
      block_created := index.block_number }
  let b' := { b with tokens_registration := some registration }
  { r with pending_pools := aupd r.pending_pools registration.pool_id b' }

/-- The token-indexing loop of try_upgrade: for each token of the upgraded
pool, pools_by_token.entry(token).or_default().insert(pool_id). -/
def bucket_add (pool_id : H256) (m : List (H160 × List H256))
    (tokens : List H160) : List (H160 × List H256) :=
  tokens.foldl (fun m t => aupd m t (slinsert ((alookup m t).getD []) pool_id)) m

/-- One upgrade step of try_upgrade: move a completed pool from pending to
pools and index its id under each of its tokens. -/
def PoolRegistry.upgrade_one (r : PoolRegistry) (pool_id : H256)
    (p : RegisteredPool) : PoolRegistry :=
  { pools := aupd r.pools pool_id p
    pending_pools := aerase r.pending_pools pool_id
    pools_by_token := bucket_add pool_id r.pools_by_token p.tokens }

/-- The iteration of PoolRegistry::try_upgrade over a snapshot of the pending
pools; the Bool is the success flag, and on failure the state keeps the
mutations already performed, as the Rust code does. -/
def PoolRegistry.try_upgrade_go (r : PoolRegistry) :
    List (H256 × WeightedPoolBuilder) → PoolRegistry × Bool
  | [] => (r, true)
  | (pool_id, b) :: rest =>
    match b.into_pool with
    | none => (r, false)
    | some p => (r.upgrade_one pool_id p).try_upgrade_go rest

/-- PoolRegistry::try_upgrade. -/
def PoolRegistry.try_upgrade (r : PoolRegistry) : PoolRegistry × Bool :=
  r.try_upgrade_go r.pending_pools

/-- Application of a single event to the pending pools. -/
def PoolRegistry.apply_event (r : PoolRegistry) (index : EventIndex) :
    BalancerEvent → PoolRegistry
  | .poolRegistered e => r.insert_pool index e
  | .tokensRegistered e => r.insert_token_data index e

/-- The event-folding phase of PoolRegistry::insert_events. -/
def PoolRegistry.fold_events (r : PoolRegistry)
    (events : List (EventIndex × BalancerEvent)) : PoolRegistry :=
  events.foldl (fun acc ie => acc.apply_event ie.1 ie.2) r

/-- PoolRegistry::insert_events: fold all events into pending, then attempt
the upgrade. -/
def PoolRegistry.insert_events (r : PoolRegistry)
    (events : List (EventIndex × BalancerEvent)) : PoolRegistry × Bool :=
  (r.fold_events events).try_upgrade

/-- EventStoring::append_events for PoolRegistry on well-formed events. -/
def PoolRegistry.append_events (r : PoolRegistry)
    (events : List (EventIndex × BalancerEvent)) : PoolRegistry × Bool :=
  r.insert_events events

/-- PoolRegistry::delete_pools: retain entries created strictly before the
given block and intersect every token bucket with the surviving pool ids. -/
def PoolRegistry.delete_pools (r : PoolRegistry)
    (delete_from_block_number : Nat) : PoolRegistry :=
  let pools' := r.pools.filter
    (fun kv => kv.2.block_created < delete_from_block_number)
  let pending' := r.pending_pools.filter
    (fun kv => kv.2.block_created < delete_from_block_number)
  let retained : List H256 := akeys pools'
  { pools := pools'
    pending_pools := pending'
    pools_by_token := r.pools_by_token.map
      (fun kv => (kv.1, kv.2.filter (fun id => id ∈ retained))) }

/-- PoolRegistry::replace_events: delete from the given block, then re-apply
the events. -/
def PoolRegistry.replace_events (r : PoolRegistry)
    (delete_from_block_number : Nat)
    (events : List (EventIndex × BalancerEvent)) : PoolRegistry × Bool :=
  (r.delete_pools delete_from_block_number).insert_events events

/-- Modelled from the spec: TokenPair (model crate, not under src) is an
unordered pair of distinct addresses whose canonical representation orders
the two addresses; construction fails if they are equal. -/
structure TokenPair where
  fst : H160
  snd : H160
deriving DecidableEq, Repr

/-- Modelled from the spec: TokenPair::new fails on equal addresses and
orders the pair canonically. -/
def TokenPair.new (a b : H160) : Option TokenPair :=
  if a = b then none
  else if a < b then some ⟨a, b⟩ else some ⟨b, a⟩

/-- TokenPair::get returns the canonical ordered pair. -/
def TokenPair.get (tp : TokenPair) : H160 × H160 := (tp.fst, tp.snd)

/-- Option-valued mapM used to model the lookup loop of
pools_containing_pair; none models the expect panic. -/
def omap? {α β : Type} (f : α → Option β) : List α → Option (List β)
  | [] => some []
  | x :: xs =>
    match f x, omap? f xs with
    | some y, some ys => some (y :: ys)
    | _, _ => none

/-- PoolRegistry::pools_containing_pair: intersect the two token buckets
(missing buckets default to the empty set) and look every id up in pools;
none models the expect panic on a dangling id. -/
def PoolRegistry.pools_containing_pair (r : PoolRegistry) (tp : TokenPair) :
    Option (List RegisteredPool) :=
  let pools_0 := (alookup r.pools_by_token tp.get.1).getD []
  let pools_1 := (alookup r.pools_by_token tp.get.2).getD []
  omap? (fun id => alookup r.pools id) (pools_0.filter (fun id => id ∈ pools_1))

/-- The index-consistency invariant of the registry, as the spec states it:
every id in a bucket is a registered pool containing that token, and every
registered pool is reachable through the bucket of each of its tokens. -/
def PoolRegistry.Consistent (r : PoolRegistry) : Prop :=
  (∀ t ids id, alookup r.pools_by_token t = some ids → id ∈ ids →
      ∃ p, alookup r.pools id = some p ∧ t ∈ p.tokens) ∧
  (∀ id p t, alookup r.pools id = some p → t ∈ p.tokens →
      ∃ ids, alookup r.pools_by_token t = some ids ∧ id ∈ ids)

/-- The weakened index-consistency invariant: bucket entries point at
registered pools, and every registered pool is reachable via each of its
tokens; bucket entries need not list the token among the pool tokens. -/
def PoolRegistry.WeakConsistent (r : PoolRegistry) : Prop :=
  (∀ t ids id, alookup r.pools_by_token t = some ids → id ∈ ids →
      ∃ p, alookup r.pools id = some p) ∧
  (∀ id p t, alookup r.pools id = some p → t ∈ p.tokens →
      ∃ ids, alookup r.pools_by_token t = some ids ∧ id ∈ ids)

/-- Registry states reachable by any sequence of the three mutating
operations, error outcomes included. -/
inductive PoolRegistry.Reachable : PoolRegistry → Prop
  | empty : Reachable PoolRegistry.empty
  | append (r : PoolRegistry) (events : List (EventIndex × BalancerEvent)) :
      Reachable r → Reachable (r.append_events events).1
  | replace (r : PoolRegistry) (b : Nat)
      (events : List (EventIndex × BalancerEvent)) :
      Reachable r → Reachable (r.replace_events b events).1
  | delete (r : PoolRegistry) (b : Nat) :
      Reachable r → Reachable (r.delete_pools b)

/-- The pool id an event refers to. -/
def BalancerEvent.pid : BalancerEvent → H256
  | .poolRegistered e => e.pool_id
  | .tokensRegistered e => e.pool_id

/-- Pool ids mentioned by a list of events. -/
def event_pool_ids (events : List (EventIndex × BalancerEvent)) : List H256 :=
  events.map (fun ie => ie.2.pid)


/-- Membership of a pool id in the bucket of a token. -/
def PoolRegistry.in_bucket (r : PoolRegistry) (t : H160) (id : H256) : Prop :=
  ∃ ids, alookup r.pools_by_token t = some ids ∧ id ∈ ids

/-! ## Order book data model (src/orderbook/src/orderbook.rs)

The OrderCreation payload, UID derivation and signature recovery live in the
model crate, which is not part of the inspected sources; they are modelled
from the spec below.  Signature recovery and UID derivation are external
primitives of the order book and enter as function parameters. -/

/-- Modelled from the spec: the order kind, Sell or Buy (model crate). -/
inductive OrderKind : Type
  | sell
  | buy
deriving DecidableEq, Repr

/-- Modelled from the spec: the user-signed order payload (model crate).
The recoverable signature is opaque and modelled as a number. -/
structure OrderCreation where
  sell_token : H160
  buy_token : H160
  sell_amount : Nat
  buy_amount : Nat
  valid_to : Nat
  app_data : Nat
  fee_amount : Nat
  kind : OrderKind
  partly_fillable : Bool
  signature : Nat
deriving DecidableEq, Repr

/-- Order metadata stamped by the order book on admission. -/
structure OrderMetaData where
  creation_date : Nat
  owner : H160
  uid : Nat
deriving DecidableEq, Repr

/-- An admitted order. -/
structure Order where
  order_meta_data : OrderMetaData
  order_creation : OrderCreation
deriving DecidableEq, Repr

/-- The admission error taxonomy of OrderBook::add_order. -/
inductive AddOrderError : Type
  | DuplicatedOrder
  | InvalidSignature
  | Forbidden
  | MissingOrderData
  | PastValidTo
  | InsufficientFunds
deriving DecidableEq, Repr

/-- The removal error of OrderBook::remove_order. -/
inductive RemoveOrderError : Type
  | DoesNotExist
deriving DecidableEq, Repr

/-- has_future_valid_to: order.valid_to as u64 > now. -/
def has_future_valid_to (now_in_epoch_seconds : Nat)
    (order : OrderCreation) : Bool :=
  decide (order.valid_to > now_in_epoch_seconds)

/-- OrderBook::order_creation_to_order.  validate_signature (signature
recovery over the domain-separated hash, an external primitive) and uid_of
(OrderUid derivation) are abstract parameters; creation_date is the wall
clock reading. -/
def order_creation_to_order
    (validate_signature : OrderCreation → Option H160)
    (uid_of : OrderCreation → H160 → Nat) (creation_date : Nat)
    (user_order : OrderCreation) : Except AddOrderError Order :=
  match validate_signature user_order with
  | none => .error .InvalidSignature
  | some owner =>
    .ok { order_meta_data :=
            { creation_date := creation_date, owner := owner,
              uid := uid_of user_order owner }
          order_creation := user_order }

/-- OrderBook::add_order: validity-window check, duplicate check, signature
recovery, insertion.  Returns the new order list and result. -/
def add_order (validate_signature : OrderCreation → Option H160)
    (uid_of : OrderCreation → H160 → Nat) (now : Nat) (orders : List Order)
    (order : OrderCreation) : List Order × Except AddOrderError Nat :=
  if ! has_future_valid_to now order then
    (orders, .error .PastValidTo)
  else if orders.any (fun x => x.order_creation = order) then
    (orders, .error .DuplicatedOrder)
  else
    match order_creation_to_order validate_signature uid_of now order with
    | .error e => (orders, .error e)
    | .ok o => (orders ++ [o], .ok o.order_meta_data.uid)

/-- Iterator::position. -/
def position {α : Type} (p : α → Bool) : List α → Option Nat
  | [] => none
  | x :: xs => if p x then some 0 else (position p xs).map (· + 1)

/-- Vec::swap_remove: replace the removed slot with the last element. -/
def swapRemove {α : Type} (l : List α) (i : Nat) : List α :=
  match l.getLast? with
  | none => l
  | some last => (l.set i last).dropLast

/-- OrderBook::remove_order: delete the first structurally equal entry. -/
def remove_order (orders : List Order) (order : OrderCreation) :
    Except RemoveOrderError (List Order) :=
  match position (fun x => x.order_creation = order) orders with
  | some i => .ok (swapRemove orders i)
  | none => .error .DoesNotExist

/-- OrderBook::remove_expired_orders: retain orders with a future valid_to. -/
def remove_expired_orders (now_in_epoch_seconds : Nat)
    (orders : List Order) : List Order :=
  orders.filter (fun o => has_future_valid_to now_in_epoch_seconds o.order_creation)

/-! ## Auction model translation (src/solver/src/http_solver.rs) -/

/-- One lowercase hexadecimal digit. -/
def hexChar (n : Nat) : Char :=
  if n < 10 then Char.ofNat (48 + n) else Char.ofNat (87 + n)

/-- Fixed-width lowercase hexadecimal digits of a number, most significant
first; width 40 corresponds to the LowerHex formatting of H160. -/
def hexDigits : Nat → Nat → List Char
  | 0, _ => []
  | w + 1, n => hexDigits w (n / 16) ++ [hexChar (n % 16)]

/-- Decimal string of a natural number, as usize::to_string renders it. -/
def natStr (n : Nat) : String :=
  if n = 0 then "0" else String.mk ((Nat.digits 10 n).reverse.map hexChar)

/-- HttpSolver::token_to_string: the letter t followed by the lowercase hex
of the address. -/
def token_to_string (token : H160) : String :=
  String.mk ('t' :: hexDigits 40 token)

/-- A limit order of the solver liquidity model; the settlement-handling
capability is an opaque reference tracked by identity. -/
structure LimitOrder where
  id : String
  sell_token : H160
  buy_token : H160
  sell_amount : Nat
  buy_amount : Nat
  kind : OrderKind
  partly_fillable : Bool
  fee_amount : Nat
  settlement_handling : Nat
deriving DecidableEq, Repr

/-- A constant-product AMM order; the fee is a ratio of naturals and the
settlement-handling capability an opaque reference. -/
structure AmmOrder where
  tokens : TokenPair
  reserves : Nat × Nat
  fee_numer : Nat
  fee_denom : Nat
  settlement_handling : Nat
deriving DecidableEq, Repr

/-- The liquidity variants handled by HttpSolver. -/
inductive Liquidity : Type
  | limit (o : LimitOrder)
  | amm (a : AmmOrder)
deriving DecidableEq, Repr

/-- Wire model of a token. -/
structure TokenInfoModel where
  decimals : Nat
deriving DecidableEq, Repr

/-- Wire model of an order. -/
structure OrderModel where
  sell_token : String
  buy_token : String
  sell_amount : Nat
  buy_amount : Nat
  allow_part_fill : Bool
  is_sell_order : Bool
deriving DecidableEq, Repr

/-- Wire model of a constant-product AMM; the float fee is kept as the
numerator and denominator it is computed from. -/
structure UniswapModel where
  token1 : String
  token2 : String
  balance1 : Nat
  balance2 : Nat
  fee_numer : Nat
  fee_denom : Nat
  mandatory : Bool
deriving DecidableEq, Repr

/-- The wire-level batch auction model (maps are association lists). -/
structure BatchAuctionModel where
  tokens : List (String × TokenInfoModel)
  orders : List (String × OrderModel)
  uniswaps : List (String × UniswapModel)
deriving DecidableEq, Repr

/-- The prepared model: the wire model plus the id-indexed originals. -/
structure PreparedModel where
  model : BatchAuctionModel
  tokens : List (String × H160)
  limit_orders : List (String × LimitOrder)
  amm_orders : List (String × AmmOrder)
deriving DecidableEq, Repr

/-- The token set of a liquidity list, deduplicated as the HashSet is. -/
def liquidity_tokens (liquidity : List Liquidity) : List H160 :=
  (liquidity.flatMap fun l =>
    match l with
    | .limit o => [o.sell_token, o.buy_token]
    | .amm a => [a.tokens.get.1, a.tokens.get.2]).dedup

/-- HttpSolver::tokens: map each distinct token to its string id. -/
def tokens_map (liquidity : List Liquidity) : List (String × H160) :=
  (liquidity_tokens liquidity).map (fun t => (token_to_string t, t))

/-- HttpSolver::token_models: decimals default to 18. -/
def token_models (tokens : List (String × H160)) :
    List (String × TokenInfoModel) :=
  tokens.map (fun kv => (kv.1, { decimals := 18 }))

/-- split_liquidity. -/
def split_liquidity : List Liquidity → List LimitOrder × List AmmOrder
  | [] => ([], [])
  | .limit o :: rest =>
    let p := split_liquidity rest
    (o :: p.1, p.2)
  | .amm a :: rest =>
    let p := split_liquidity rest
    (p.1, a :: p.2)

/-- enumerate().map(|(index, x)| (index.to_string(), x)) starting at i. -/
def enumerate_from {α : Type} (i : Nat) : List α → List (String × α)
  | [] => []
  | x :: xs => (natStr i, x) :: enumerate_from (i + 1) xs

/-- HttpSolver::orders: limit orders keyed by insertion position. -/
def orders_map (orders : List LimitOrder) : List (String × LimitOrder) :=
  enumerate_from 0 orders

/-- HttpSolver::amms: AMM orders keyed by insertion position. -/
def amms_map (amms : List AmmOrder) : List (String × AmmOrder) :=
  enumerate_from 0 amms

/-- The wire projection of one limit order. -/
def order_model_of (order : LimitOrder) : OrderModel :=
  { sell_token := token_to_string order.sell_token
    buy_token := token_to_string order.buy_token
    sell_amount := order.sell_amount
    buy_amount := order.buy_amount
    allow_part_fill := order.partly_fillable
    is_sell_order := order.kind = OrderKind.sell }

/-- HttpSolver::order_models. -/
def order_models_map (orders : List (String × LimitOrder)) :
    List (String × OrderModel) :=
  orders.map (fun kv => (kv.1, order_model_of kv.2))

/-- The wire projection of one AMM order. -/
def uniswap_model_of (amm : AmmOrder) : UniswapModel :=
  { token1 := token_to_string amm.tokens.get.1
    token2 := token_to_string amm.tokens.get.2
    balance1 := amm.reserves.1
    balance2 := amm.reserves.2
    fee_numer := amm.fee_numer
    fee_denom := amm.fee_denom
    mandatory := false }

/-- HttpSolver::amm_models. -/
def amm_models_map (amms : List (String × AmmOrder)) :
    List (String × UniswapModel) :=
  amms.map (fun kv => (kv.1, uniswap_model_of kv.2))

/-- HttpSolver::prepare_model. -/
def prepare_model (liquidity : List Liquidity) : PreparedModel :=
  let tokens := tokens_map liquidity
  let parts := split_liquidity liquidity
  let limit_orders := orders_map parts.1
  let amm_orders := amms_map parts.2
  { model :=
      { tokens := token_models tokens
        orders := order_models_map limit_orders
        uniswaps := amm_models_map amm_orders }
    tokens := tokens
    limit_orders := limit_orders
    amm_orders := amm_orders }

/-! ## Settlement simulation (src/solver/src/settlement_simulation.rs) -/

/-- An encoded settlement, opaque for the simulation layer. -/
abbrev EncodedSettlement := Nat

/-- The relevant fields of the transaction builder produced by
settle_method_builder (code outside the inspected sources): sender, contract
address and calldata, always populated. -/
structure TransactionBuilder where
  from_address : H160
  to_address : H160
  data : List Nat
deriving DecidableEq, Repr

/-- Alternate LowerHex formatting of an H160: 0x followed by 40 digits. -/
def h160_hex (a : H160) : String :=
  String.mk ('0' :: 'x' :: hexDigits 40 a)

/-- hex::encode of a byte string. -/
def bytes_hex (l : List Nat) : String :=
  String.mk (l.flatMap (fun b => hexDigits 2 b))

/-- tenderly_link: the diagnostic simulation URL. -/
def tenderly_link (current_block : Nat) (network_id : String)
    (tx : TransactionBuilder) : String :=
  "https://dashboard.tenderly.co/gp-v2/staging/simulator/new?block=" ++
    natStr current_block ++
    "&blockIndex=0&from=" ++ h160_hex tx.from_address ++
    "&gas=8000000&gasPrice=0&value=0&contractAddress=" ++
    h160_hex tx.to_address ++
    "&rawFunctionInput=0x" ++ bytes_hex tx.data ++
    "&network=" ++ network_id

/-- simulate_settlements: build the per-settlement batched calls, then map
each outcome to a result, attaching the tenderly link on failure.  The
batched transport and the concurrent block-number fetch are modelled by the
outcome oracle sim and the current_block argument. -/
def simulate_settlements (settle_method : EncodedSettlement → TransactionBuilder)
    (sim : EncodedSettlement → Bool) (current_block : Nat)
    (network_id : String) (settlements : List EncodedSettlement) :
    List (Except String Unit) :=
  let futures := settlements.map (fun s => (sim s, settle_method s))
  futures.map (fun ft =>
    if ft.1 then .ok ()
    else .error (tenderly_link current_block network_id ft.2))

/-! ## Concrete instances used by the checks below -/

/-- A lone PoolRegistered event batch. -/
def ce1_events : List (EventIndex × BalancerEvent) :=
  [(⟨1, 0⟩, .poolRegistered ⟨1, 2, .General⟩)]

/-- A matched pair of registration events at block 1 for pool 1. -/
def ce2_events : List (EventIndex × BalancerEvent) :=
  [(⟨1, 0⟩, .poolRegistered ⟨1, 7, .General⟩),
   (⟨1, 1⟩, .tokensRegistered ⟨1, [10]⟩)]

/-- The registry holding pool 1, created at block 1 with token 10. -/
def ce2_r : PoolRegistry := (PoolRegistry.empty.append_events ce2_events).1

/-- Replacement events re-registering pool id 1 at block 6. -/
def ce2_new_events : List (EventIndex × BalancerEvent) :=
  [(⟨6, 0⟩, .poolRegistered ⟨1, 8, .General⟩),
   (⟨6, 1⟩, .tokensRegistered ⟨1, [11]⟩)]

/-- Registration of pool 1 with tokens 10 and 11 at block 1. -/
def ce5_events1 : List (EventIndex × BalancerEvent) :=
  [(⟨1, 0⟩, .poolRegistered ⟨1, 7, .General⟩),
   (⟨1, 1⟩, .tokensRegistered ⟨1, [10, 11]⟩)]

/-- Re-registration of pool 1 with only token 10 at block 2. -/
def ce5_events2 : List (EventIndex × BalancerEvent) :=
  [(⟨2, 0⟩, .poolRegistered ⟨1, 7, .General⟩),
   (⟨2, 1⟩, .tokensRegistered ⟨1, [10]⟩)]

/-- The registry after the first registration. -/
def ce5_r1 : PoolRegistry := (PoolRegistry.empty.append_events ce5_events1).1

/-- The registry after the re-registration with a shrunk token set. -/
def ce5_r2 : PoolRegistry := (ce5_r1.append_events ce5_events2).1

/-- A small consistent registry: one pool with two tokens. -/
def ce6_r : PoolRegistry :=
  { pools_by_token := [(10, [1]), (11, [1])]
    pools := [(1, ⟨1, 7, .General, [10, 11], 1⟩)]
    pending_pools := [] }

/-- A small liquidity list: one limit order and one AMM. -/
def ce8_liquidity : List Liquidity :=
  [.limit { id := "x", sell_token := 1, buy_token := 2, sell_amount := 10,
            buy_amount := 20, kind := .sell, partly_fillable := false,
            fee_amount := 0, settlement_handling := 7 },
   .amm { tokens := ⟨1, 2⟩, reserves := (5, 6), fee_numer := 3,
          fee_denom := 1000, settlement_handling := 8 }]

/-- A concrete transaction builder for the simulation witness. -/
def ce9_tx : TransactionBuilder := ⟨1, 2, [171, 205]⟩

/-! ## Lemmas about the association-list primitives -/

theorem alookup_aupd {κ ν : Type} [DecidableEq κ] (l : List (κ × ν))
    (k k' : κ) (v : ν) :
    alookup (aupd l k v) k' = if k = k' then some v else alookup l k' := by
  induction l with
  | nil => simp [aupd, alookup]
  | cons kv rest ih =>
    obtain ⟨k₀, v₀⟩ := kv
    simp only [aupd]
    by_cases h₀ : k₀ = k
    · subst h₀
      simp only [if_pos rfl, alookup]
      by_cases h : k₀ = k' <;> simp [h]
    · simp only [if_neg h₀, alookup]
      by_cases h₁ : k₀ = k'
      · subst h₁
        have hne : k ≠ k₀ := fun he => h₀ he.symm
        simp [alookup, hne]
      · simp [alookup, h₁, ih]

theorem alookup_aerase_ne {κ ν : Type} [DecidableEq κ] (l : List (κ × ν))
    (k k' : κ) (h : k ≠ k') :
    alookup (aerase l k) k' = alookup l k' := by
  induction l with
  | nil => simp [aerase]
  | cons kv rest ih =>
    obtain ⟨k₀, v₀⟩ := kv
    by_cases h₀ : k₀ = k
    · subst h₀
      simp [aerase, alookup, fun he : k₀ = k' => h he]
    · simp only [aerase, if_neg h₀, alookup]
      by_cases h₁ : k₀ = k' <;> simp [h₁, ih]

theorem alookup_none_of_not_mem_akeys {κ ν : Type} [DecidableEq κ]
    (l : List (κ × ν)) (k : κ) (h : k ∉ akeys l) : alookup l k = none := by
  induction l with
  | nil => simp [alookup]
  | cons kv rest ih =>
    obtain ⟨k₀, v₀⟩ := kv
    simp only [akeys, List.map_cons, List.mem_cons, not_or] at h
    have hk : k₀ ≠ k := fun he => h.1 he.symm
    simpa [alookup, hk] using ih h.2

theorem mem_akeys_of_alookup {κ ν : Type} [DecidableEq κ]
    (l : List (κ × ν)) (k : κ) (v : ν) (h : alookup l k = some v) :
    k ∈ akeys l := by
  by_contra hk
  rw [alookup_none_of_not_mem_akeys l k hk] at h
  exact Option.noConfusion h

theorem mem_of_alookup {κ ν : Type} [DecidableEq κ]
    (l : List (κ × ν)) (k : κ) (v : ν) (h : alookup l k = some v) :
    (k, v) ∈ l := by
  induction l with
  | nil => simp [alookup] at h
  | cons kv rest ih =>
    obtain ⟨k₀, v₀⟩ := kv
    by_cases h₀ : k₀ = k
    · subst h₀
      simp [alookup] at h
      rw [← h]
      exact List.mem_cons_self _ _
    · simp only [alookup, if_neg h₀] at h
      exact List.mem_cons_of_mem _ (ih h)

theorem alookup_of_mem_nodup {κ ν : Type} [DecidableEq κ]
    (l : List (κ × ν)) (k : κ) (v : ν) (hnd : (akeys l).Nodup)
    (h : (k, v) ∈ l) : alookup l k = some v := by
  induction l with
  | nil => simp at h
  | cons kv rest ih =>
    obtain ⟨k₀, v₀⟩ := kv
    have hnd' : k₀ ∉ akeys rest ∧ (akeys rest).Nodup := by
      simpa [akeys, List.nodup_cons] using hnd
    rw [List.mem_cons] at h
    rcases h with h | h
    · rw [Prod.mk.injEq] at h
      obtain ⟨h1, h2⟩ := h
      subst h1; subst h2
      simp [alookup]
    · have hk₀ : k₀ ≠ k := by
        intro he
        subst he
        exact hnd'.1 (by simpa [akeys] using List.mem_map_of_mem Prod.fst h)
      simp only [alookup, if_neg hk₀]
      exact ih hnd'.2 h

theorem akeys_aupd_of_mem {κ ν : Type} [DecidableEq κ] (l : List (κ × ν))
    (k : κ) (v : ν) (h : k ∈ akeys l) : akeys (aupd l k v) = akeys l := by
  induction l with
  | nil => simp [akeys] at h
  | cons kv rest ih =>
    obtain ⟨k₀, v₀⟩ := kv
    by_cases h₀ : k₀ = k
    · subst h₀
      simp [aupd, akeys]
    · have h' : k ∈ akeys rest := by
        rcases List.mem_cons.mp (show k ∈ k₀ :: akeys rest from h) with he | hm
        · exact absurd he.symm h₀
        · exact hm
      simp only [aupd, if_neg h₀, akeys, List.map_cons]
      exact congrArg (List.cons k₀) (ih h')

theorem akeys_aupd_of_not_mem {κ ν : Type} [DecidableEq κ] (l : List (κ × ν))
    (k : κ) (v : ν) (h : k ∉ akeys l) : akeys (aupd l k v) = akeys l ++ [k] := by
  induction l with
  | nil => simp [aupd, akeys]
  | cons kv rest ih =>
    obtain ⟨k₀, v₀⟩ := kv
    simp only [akeys, List.map_cons, List.mem_cons, not_or] at h
    have h₀ : k₀ ≠ k := fun he => h.1 he.symm
    simp only [aupd, if_neg h₀, akeys, List.map_cons, List.cons_append]
    exact congrArg (List.cons k₀) (ih h.2)

theorem akeys_aupd_nodup {κ ν : Type} [DecidableEq κ] (l : List (κ × ν))
    (k : κ) (v : ν) (h : (akeys l).Nodup) : (akeys (aupd l k v)).Nodup := by
  by_cases hm : k ∈ akeys l
  · rw [akeys_aupd_of_mem l k v hm]; exact h
  · rw [akeys_aupd_of_not_mem l k v hm]
    simpa [List.nodup_append] using ⟨h, hm⟩

theorem akeys_aerase_sublist {κ ν : Type} [DecidableEq κ] (l : List (κ × ν))
    (k : κ) : (akeys (aerase l k)).Sublist (akeys l) := by
  induction l with
  | nil => simp [aerase]
  | cons kv rest ih =>
    obtain ⟨k₀, v₀⟩ := kv
    by_cases h₀ : k₀ = k
    · subst h₀
      simp only [aerase, if_pos rfl, akeys, List.map_cons]
      exact List.sublist_cons_self _ _
    · simp only [aerase, if_neg h₀, akeys, List.map_cons]
      exact List.Sublist.cons₂ _ ih

theorem alookup_filter_nodup {κ ν : Type} [DecidableEq κ] (l : List (κ × ν))
    (p : κ × ν → Bool) (k : κ) (hnd : (akeys l).Nodup) :
    alookup (l.filter p) k =
      match alookup l k with
      | some v => if p (k, v) then some v else none
      | none => none := by
  induction l with
  | nil => simp [alookup]
  | cons kv rest ih =>
    obtain ⟨k₀, v₀⟩ := kv
    have hnd' : k₀ ∉ akeys rest ∧ (akeys rest).Nodup := by
      simpa [akeys, List.nodup_cons] using hnd
    by_cases h₀ : k₀ = k
    · subst h₀
      by_cases hp : p (k₀, v₀)
      · simp [List.filter_cons, hp, alookup]
      · have hnolook : alookup (rest.filter p) k₀ = none := by
          apply alookup_none_of_not_mem_akeys
          intro hmem
          exact hnd'.1 (((List.filter_sublist rest).map Prod.fst).mem hmem)
        simp [List.filter_cons, hp, alookup, hnolook]
    · by_cases hp : p (k₀, v₀) <;>
        simp [List.filter_cons, hp, alookup, h₀, ih hnd'.2]

theorem alookup_map_value {κ ν ν' : Type} [DecidableEq κ]
    (l : List (κ × ν)) (f : κ × ν → ν') (k : κ) :
    alookup (l.map (fun kv => (kv.1, f kv))) k =
      (alookup l k).map (fun v => f (k, v)) := by
  induction l with
  | nil => simp [alookup]
  | cons kv rest ih =>
    obtain ⟨k₀, v₀⟩ := kv
    by_cases h₀ : k₀ = k
    · subst h₀
      simp [alookup]
    · simp [alookup, h₀, ih]

theorem mem_slinsert_self {α : Type} [DecidableEq α] (l : List α) (a : α) :
    a ∈ slinsert l a := by
  by_cases h : a ∈ l <;> simp [slinsert, h]

theorem mem_slinsert_of_mem {α : Type} [DecidableEq α] (l : List α) (a b : α)
    (h : b ∈ l) : b ∈ slinsert l a := by
  by_cases ha : a ∈ l <;> simp [slinsert, ha, h]

theorem mem_slinsert_iff {α : Type} [DecidableEq α] (l : List α) (a b : α) :
    b ∈ slinsert l a ↔ b ∈ l ∨ b = a := by
  by_cases ha : a ∈ l
  · simp only [slinsert, if_pos ha]
    constructor
    · exact fun h => Or.inl h
    · rintro (h | h)
      · exact h
      · exact h ▸ ha
  · simp [slinsert, ha]

/-! ## Registry-level lemmas -/

theorem alookup_aupd_self {κ ν : Type} [DecidableEq κ] (l : List (κ × ν))
    (k : κ) (v : ν) : alookup (aupd l k v) k = some v := by
  rw [alookup_aupd, if_pos rfl]

theorem alookup_aupd_ne {κ ν : Type} [DecidableEq κ] (l : List (κ × ν))
    (k k' : κ) (v : ν) (h : k ≠ k') :
    alookup (aupd l k v) k' = alookup l k' := by
  rw [alookup_aupd, if_neg h]

theorem bucket_add_cons (pool_id : H256) (m : List (H160 × List H256))
    (t₀ : H160) (rest : List H160) :
    bucket_add pool_id m (t₀ :: rest) =
      bucket_add pool_id
        (aupd m t₀ (slinsert ((alookup m t₀).getD []) pool_id)) rest := rfl

theorem bucket_add_mono (pool_id : H256) (m : List (H160 × List H256))
    (tokens : List H160) (t : H160) (id : H256)
    (h : ∃ ids, alookup m t = some ids ∧ id ∈ ids) :
    ∃ ids, alookup (bucket_add pool_id m tokens) t = some ids ∧ id ∈ ids := by
  induction tokens generalizing m with
  | nil => exact h
  | cons t₀ rest ih =>
    rw [bucket_add_cons]
    apply ih
    obtain ⟨ids, hl, hm⟩ := h
    by_cases ht : t₀ = t
    · subst ht
      refine ⟨slinsert ((alookup m t₀).getD []) pool_id,
        alookup_aupd_self _ _ _, ?_⟩
      rw [hl]
      exact mem_slinsert_of_mem _ _ _ hm
    · exact ⟨ids, by rw [alookup_aupd_ne _ _ _ _ ht, hl], hm⟩

theorem bucket_add_mem_self (pool_id : H256) (m : List (H160 × List H256))
    (tokens : List H160) (t : H160) (h : t ∈ tokens) :
    ∃ ids, alookup (bucket_add pool_id m tokens) t = some ids ∧ pool_id ∈ ids := by
  induction tokens generalizing m with
  | nil => simp at h
  | cons t₀ rest ih =>
    rw [bucket_add_cons]
    by_cases hm : t ∈ rest
    · exact ih _ hm
    · have he : t₀ = t := by
        rcases List.mem_cons.mp h with he | hmem
        · exact he.symm
        · exact absurd hmem hm
      subst he
      apply bucket_add_mono
      exact ⟨slinsert ((alookup m t₀).getD []) pool_id,
        alookup_aupd_self _ _ _, mem_slinsert_self _ _⟩

theorem bucket_add_other (pool_id : H256) (m : List (H160 × List H256))
    (tokens : List H160) (t : H160) (id : H256) (hne : id ≠ pool_id) :
    (∃ ids, alookup (bucket_add pool_id m tokens) t = some ids ∧ id ∈ ids) ↔
      (∃ ids, alookup m t = some ids ∧ id ∈ ids) := by
  induction tokens generalizing m with
  | nil => exact Iff.rfl
  | cons t₀ rest ih =>
    rw [bucket_add_cons, ih]
    by_cases ht : t₀ = t
    · subst ht
      constructor
      · rintro ⟨ids, hl, hm⟩
        rw [alookup_aupd_self] at hl
        have hl' : slinsert ((alookup m t₀).getD []) pool_id = ids := by
          injection hl
        rw [← hl'] at hm
        rcases (mem_slinsert_iff _ _ _).mp hm with hm' | hm'
        · cases hcase : alookup m t₀ with
          | none =>
            rw [hcase] at hm'
            simp at hm'
          | some ids₀ =>
            rw [hcase] at hm'
            exact ⟨ids₀, rfl, by simpa using hm'⟩
        · exact absurd hm' hne
      · rintro ⟨ids, hl, hm⟩
        refine ⟨slinsert ((alookup m t₀).getD []) pool_id,
          alookup_aupd_self _ _ _, ?_⟩
        rw [hl]
        exact mem_slinsert_of_mem _ _ _ hm
    · rw [alookup_aupd_ne _ _ _ _ ht]

theorem try_upgrade_go_flag (l : List (H256 × WeightedPoolBuilder))
    (r : PoolRegistry) :
    (r.try_upgrade_go l).2 = true ↔ ∀ kb ∈ l, kb.2.into_pool.isSome := by
  induction l generalizing r with
  | nil => simp [PoolRegistry.try_upgrade_go]
  | cons kb rest ih =>
    obtain ⟨k, b⟩ := kb
    cases hb : b.into_pool with
    | none => simp [PoolRegistry.try_upgrade_go, hb]
    | some p => simp [PoolRegistry.try_upgrade_go, hb, ih]

theorem try_upgrade_go_pools_frame (l : List (H256 × WeightedPoolBuilder))
    (r : PoolRegistry) (id : H256) (h : id ∉ akeys l) :
    alookup (r.try_upgrade_go l).1.pools id = alookup r.pools id := by
  induction l generalizing r with
  | nil => rfl
  | cons kb rest ih =>
    obtain ⟨k, b⟩ := kb
    simp only [akeys, List.map_cons, List.mem_cons, not_or] at h
    cases hb : b.into_pool with
    | none => simp [PoolRegistry.try_upgrade_go, hb]
    | some p =>
      simp only [PoolRegistry.try_upgrade_go, hb]
      rw [ih _ h.2]
      exact alookup_aupd_ne _ _ _ _ (fun he => h.1 he.symm)

theorem try_upgrade_go_pending_frame (l : List (H256 × WeightedPoolBuilder))
    (r : PoolRegistry) (id : H256) (h : id ∉ akeys l) :
    alookup (r.try_upgrade_go l).1.pending_pools id =
      alookup r.pending_pools id := by
  induction l generalizing r with
  | nil => rfl
  | cons kb rest ih =>
    obtain ⟨k, b⟩ := kb
    simp only [akeys, List.map_cons, List.mem_cons, not_or] at h
    cases hb : b.into_pool with
    | none => simp [PoolRegistry.try_upgrade_go, hb]
    | some p =>
      simp only [PoolRegistry.try_upgrade_go, hb]
      rw [ih _ h.2]
      exact alookup_aerase_ne _ _ _ (fun he => h.1 he.symm)

theorem try_upgrade_go_bucket_mono (l : List (H256 × WeightedPoolBuilder))
    (r : PoolRegistry) (t : H160) (id : H256) (h : r.in_bucket t id) :
    (r.try_upgrade_go l).1.in_bucket t id := by
  induction l generalizing r with
  | nil => exact h
  | cons kb rest ih =>
    obtain ⟨k, b⟩ := kb
    cases hb : b.into_pool with
    | none => simpa [PoolRegistry.try_upgrade_go, hb] using h
    | some p =>
      simp only [PoolRegistry.try_upgrade_go, hb]
      exact ih _ (bucket_add_mono _ _ _ _ _ h)

theorem try_upgrade_go_bucket_other (l : List (H256 × WeightedPoolBuilder))
    (r : PoolRegistry) (t : H160) (id : H256) (h : id ∉ akeys l) :
    (r.try_upgrade_go l).1.in_bucket t id ↔ r.in_bucket t id := by
  induction l generalizing r with
  | nil => exact Iff.rfl
  | cons kb rest ih =>
    obtain ⟨k, b⟩ := kb
    simp only [akeys, List.map_cons, List.mem_cons, not_or] at h
    cases hb : b.into_pool with
    | none => simp [PoolRegistry.try_upgrade_go, hb]
    | some p =>
      simp only [PoolRegistry.try_upgrade_go, hb]
      rw [ih _ h.2]
      exact bucket_add_other _ _ _ _ _ h.1

theorem try_upgrade_go_pending_empty (l : List (H256 × WeightedPoolBuilder))
    (r : PoolRegistry) (hl : r.pending_pools = l)
    (hs : (r.try_upgrade_go l).2 = true) :
    (r.try_upgrade_go l).1.pending_pools = [] := by
  induction l generalizing r with
  | nil => simpa [PoolRegistry.try_upgrade_go] using hl
  | cons kb rest ih =>
    obtain ⟨k, b⟩ := kb
    cases hb : b.into_pool with
    | none => simp [PoolRegistry.try_upgrade_go, hb] at hs
    | some p =>
      simp only [PoolRegistry.try_upgrade_go, hb] at hs ⊢
      apply ih _ _ hs
      simp [PoolRegistry.upgrade_one, hl, aerase]

theorem try_upgrade_go_upgrades (l : List (H256 × WeightedPoolBuilder))
    (r : PoolRegistry) (hnd : (akeys l).Nodup)
    (hs : (r.try_upgrade_go l).2 = true) (id : H256)
    (b : WeightedPoolBuilder) (p : RegisteredPool) (hmem : (id, b) ∈ l)
    (hp : b.into_pool = some p) :
    alookup (r.try_upgrade_go l).1.pools id = some p ∧
      ∀ t ∈ p.tokens, (r.try_upgrade_go l).1.in_bucket t id := by
  induction l generalizing r with
  | nil => simp at hmem
  | cons kb rest ih =>
    obtain ⟨k, b₀⟩ := kb
    have hnd' : k ∉ akeys rest ∧ (akeys rest).Nodup := by
      simpa [akeys, List.nodup_cons] using hnd
    cases hb : b₀.into_pool with
    | none => simp [PoolRegistry.try_upgrade_go, hb] at hs
    | some p₀ =>
      simp only [PoolRegistry.try_upgrade_go, hb] at hs ⊢
      rcases List.mem_cons.mp hmem with he | hm
      · have h1 : id = k := congrArg Prod.fst he
        have h2 : b = b₀ := congrArg Prod.snd he
        subst h1
        subst h2
        rw [hb] at hp
        have hpe : p₀ = p := by injection hp
        subst hpe
        constructor
        · rw [try_upgrade_go_pools_frame rest _ _ hnd'.1]
          exact alookup_aupd_self _ _ _
        · intro t ht
          apply try_upgrade_go_bucket_mono
          exact bucket_add_mem_self _ _ _ _ ht
      · exact ih _ hnd'.2 hs hm

theorem try_upgrade_go_pools_origin (l : List (H256 × WeightedPoolBuilder))
    (r : PoolRegistry) (id : H256) (p : RegisteredPool)
    (h : alookup (r.try_upgrade_go l).1.pools id = some p) :
    alookup r.pools id = some p ∨
      ∃ b, (id, b) ∈ l ∧ b.into_pool = some p := by
  induction l generalizing r with
  | nil => exact Or.inl h
  | cons kb rest ih =>
    obtain ⟨k, b₀⟩ := kb
    cases hb : b₀.into_pool with
    | none =>
      simp only [PoolRegistry.try_upgrade_go, hb] at h
      exact Or.inl h
    | some p₀ =>
      simp only [PoolRegistry.try_upgrade_go, hb] at h
      rcases ih _ h with h' | h'
      · show alookup r.pools id = some p ∨ _
        by_cases hk : k = id
        · subst hk
          rw [show (r.upgrade_one k p₀).pools = aupd r.pools k p₀ from rfl,
            alookup_aupd_self] at h'
          have : p₀ = p := by injection h'
          subst this
          exact Or.inr ⟨b₀, List.mem_cons_self _ _, hb⟩
        · rw [show (r.upgrade_one k p₀).pools = aupd r.pools k p₀ from rfl,
            alookup_aupd_ne _ _ _ _ hk] at h'
          exact Or.inl h'
      · obtain ⟨b, hm, hp⟩ := h'
        exact Or.inr ⟨b, List.mem_cons_of_mem _ hm, hp⟩

theorem apply_event_pools (r : PoolRegistry) (i : EventIndex)
    (e : BalancerEvent) : (r.apply_event i e).pools = r.pools := by
  cases e <;> rfl

theorem apply_event_buckets (r : PoolRegistry) (i : EventIndex)
    (e : BalancerEvent) :
    (r.apply_event i e).pools_by_token = r.pools_by_token := by
  cases e <;> rfl

theorem fold_events_pools (r : PoolRegistry)
    (events : List (EventIndex × BalancerEvent)) :
    (r.fold_events events).pools = r.pools := by
  induction events generalizing r with
  | nil => rfl
  | cons ie rest ih =>
    show ((r.apply_event ie.1 ie.2).fold_events rest).pools = r.pools
    rw [ih, apply_event_pools]

theorem fold_events_buckets (r : PoolRegistry)
    (events : List (EventIndex × BalancerEvent)) :
    (r.fold_events events).pools_by_token = r.pools_by_token := by
  induction events generalizing r with
  | nil => rfl
  | cons ie rest ih =>
    show ((r.apply_event ie.1 ie.2).fold_events rest).pools_by_token = _
    rw [ih, apply_event_buckets]

theorem apply_event_pending_frame (r : PoolRegistry) (i : EventIndex)
    (e : BalancerEvent) (id : H256) (h : id ≠ e.pid) :
    alookup (r.apply_event i e).pending_pools id =
      alookup r.pending_pools id := by
  cases e with
  | poolRegistered ev =>
    exact alookup_aupd_ne _ _ _ _ (fun he => h he.symm)
  | tokensRegistered ev =>
    exact alookup_aupd_ne _ _ _ _ (fun he => h he.symm)

theorem fold_events_pending_frame (r : PoolRegistry)
    (events : List (EventIndex × BalancerEvent)) (id : H256)
    (h : id ∉ event_pool_ids events) :
    alookup (r.fold_events events).pending_pools id =
      alookup r.pending_pools id := by
  induction events generalizing r with
  | nil => rfl
  | cons ie rest ih =>
    simp only [event_pool_ids, List.map_cons, List.mem_cons, not_or] at h
    show alookup ((r.apply_event ie.1 ie.2).fold_events rest).pending_pools id = _
    rw [ih _ (by intro hm; exact h.2 (by simpa [event_pool_ids] using hm))]
    exact apply_event_pending_frame _ _ _ _ h.1

theorem apply_event_pending_keys (r : PoolRegistry) (i : EventIndex)
    (e : BalancerEvent) (k : H256)
    (h : k ∈ akeys (r.apply_event i e).pending_pools) :
    k ∈ akeys r.pending_pools ∨ k = e.pid := by
  cases e with
  | poolRegistered ev =>
    by_cases hm : ev.pool_id ∈ akeys r.pending_pools
    · rw [show (r.apply_event i (.poolRegistered ev)).pending_pools =
          aupd r.pending_pools ev.pool_id _ from rfl,
        akeys_aupd_of_mem _ _ _ hm] at h
      exact Or.inl h
    · rw [show (r.apply_event i (.poolRegistered ev)).pending_pools =
          aupd r.pending_pools ev.pool_id _ from rfl,
        akeys_aupd_of_not_mem _ _ _ hm] at h
      rcases List.mem_append.mp h with h' | h'
      · exact Or.inl h'
      · exact Or.inr (by simpa [BalancerEvent.pid] using h')
  | tokensRegistered ev =>
    by_cases hm : ev.pool_id ∈ akeys r.pending_pools
    · rw [show (r.apply_event i (.tokensRegistered ev)).pending_pools =
          aupd r.pending_pools ev.pool_id _ from rfl,
        akeys_aupd_of_mem _ _ _ hm] at h
      exact Or.inl h
    · rw [show (r.apply_event i (.tokensRegistered ev)).pending_pools =
          aupd r.pending_pools ev.pool_id _ from rfl,
        akeys_aupd_of_not_mem _ _ _ hm] at h
      rcases List.mem_append.mp h with h' | h'
      · exact Or.inl h'
      · exact Or.inr (by simpa [BalancerEvent.pid] using h')

theorem fold_events_pending_keys (r : PoolRegistry)
    (events : List (EventIndex × BalancerEvent)) (k : H256)
    (h : k ∈ akeys (r.fold_events events).pending_pools) :
    k ∈ akeys r.pending_pools ∨ k ∈ event_pool_ids events := by
  induction events generalizing r with
  | nil => exact Or.inl h
  | cons ie rest ih =>
    have h' := ih (r.apply_event ie.1 ie.2) h
    rcases h' with h' | h'
    · rcases apply_event_pending_keys _ _ _ _ h' with h'' | h''
      · exact Or.inl h''
      · refine Or.inr ?_
        simp only [event_pool_ids, List.map_cons, List.mem_cons]
        exact Or.inl h''
    · refine Or.inr ?_
      simp only [event_pool_ids, List.map_cons, List.mem_cons]
      exact Or.inr (by simpa [event_pool_ids] using h')

theorem apply_event_pending_nodup (r : PoolRegistry) (i : EventIndex)
    (e : BalancerEvent) (h : (akeys r.pending_pools).Nodup) :
    (akeys (r.apply_event i e).pending_pools).Nodup := by
  cases e with
  | poolRegistered ev => exact akeys_aupd_nodup _ _ _ h
  | tokensRegistered ev => exact akeys_aupd_nodup _ _ _ h

theorem fold_events_pending_nodup (r : PoolRegistry)
    (events : List (EventIndex × BalancerEvent))
    (h : (akeys r.pending_pools).Nodup) :
    (akeys (r.fold_events events).pending_pools).Nodup := by
  induction events generalizing r with
  | nil => exact h
  | cons ie rest ih =>
    exact ih _ (apply_event_pending_nodup _ _ _ h)

theorem delete_pools_pools_lookup (r : PoolRegistry) (bn : Nat) (id : H256)
    (hnd : (akeys r.pools).Nodup) :
    alookup (r.delete_pools bn).pools id =
      match alookup r.pools id with
      | some p => if p.block_created < bn then some p else none
      | none => none := by
  show alookup (r.pools.filter _) id = _
  rw [alookup_filter_nodup _ _ _ hnd]
  cases alookup r.pools id <;> simp

theorem delete_pools_bucket_lookup (r : PoolRegistry) (bn : Nat) (t : H160) :
    alookup (r.delete_pools bn).pools_by_token t =
      (alookup r.pools_by_token t).map
        (fun ids => ids.filter
          (fun id => id ∈ akeys (r.delete_pools bn).pools)) := by
  show alookup (r.pools_by_token.map _) t = _
  rw [alookup_map_value]
  cases alookup r.pools_by_token t <;> rfl

theorem delete_pools_retained (r : PoolRegistry) (bn : Nat) (id : H256)
    (hnd : (akeys r.pools).Nodup) :
    id ∈ akeys (r.delete_pools bn).pools ↔
      ∃ p, alookup r.pools id = some p ∧ p.block_created < bn := by
  constructor
  · intro h
    obtain ⟨⟨k, p⟩, hm, hk⟩ := List.mem_map.mp h
    obtain rfl : k = id := hk
    have hmem := List.mem_of_mem_filter hm
    have hpred := List.of_mem_filter hm
    refine ⟨p, alookup_of_mem_nodup _ _ _ hnd hmem, by simpa using hpred⟩
  · rintro ⟨p, hp, hb⟩
    have : alookup (r.delete_pools bn).pools id = some p := by
      rw [delete_pools_pools_lookup _ _ _ hnd, hp]
      simp [hb]
    exact mem_akeys_of_alookup _ _ _ this

theorem delete_pools_pending_lookup (r : PoolRegistry) (bn : Nat) (id : H256)
    (hnd : (akeys r.pending_pools).Nodup) :
    alookup (r.delete_pools bn).pending_pools id =
      match alookup r.pending_pools id with
      | some b => if b.block_created < bn then some b else none
      | none => none := by
  show alookup (r.pending_pools.filter _) id = _
  rw [alookup_filter_nodup _ _ _ hnd]
  cases alookup r.pending_pools id <;> simp

theorem akeys_filter_sublist {κ ν : Type} (l : List (κ × ν))
    (p : κ × ν → Bool) : (akeys (l.filter p)).Sublist (akeys l) :=
  (List.filter_sublist l).map Prod.fst

theorem delete_pools_pools_nodup (r : PoolRegistry) (bn : Nat)
    (hnd : (akeys r.pools).Nodup) :
    (akeys (r.delete_pools bn).pools).Nodup :=
  (akeys_filter_sublist _ _).nodup hnd

theorem delete_pools_pending_nodup (r : PoolRegistry) (bn : Nat)
    (hnd : (akeys r.pending_pools).Nodup) :
    (akeys (r.delete_pools bn).pending_pools).Nodup :=
  (akeys_filter_sublist _ _).nodup hnd

theorem alookup_isSome_of_mem_akeys {κ ν : Type} [DecidableEq κ]
    (l : List (κ × ν)) (k : κ) (h : k ∈ akeys l) :
    ∃ v, alookup l k = some v := by
  induction l with
  | nil => simp [akeys] at h
  | cons kv rest ih =>
    obtain ⟨k₀, v₀⟩ := kv
    by_cases h₀ : k₀ = k
    · exact ⟨v₀, by simp [alookup, h₀]⟩
    · have h' : k ∈ akeys rest := by
        rcases List.mem_cons.mp (show k ∈ k₀ :: akeys rest from h) with he | hm
        · exact absurd he.symm h₀
        · exact hm
      obtain ⟨v, hv⟩ := ih h'
      exact ⟨v, by simp [alookup, h₀, hv]⟩

theorem into_pool_block (b : WeightedPoolBuilder) (p : RegisteredPool)
    (h : b.into_pool = some p) : p.block_created = b.block_created := by
  cases hpr : b.pool_registration with
  | none => simp [WeightedPoolBuilder.into_pool, hpr] at h
  | some pr =>
    cases htr : b.tokens_registration with
    | none => simp [WeightedPoolBuilder.into_pool, hpr, htr] at h
    | some tr =>
      simp only [WeightedPoolBuilder.into_pool, hpr, htr,
        Option.some.injEq] at h
      rw [← h]

theorem weak_consistent_of_fields_eq (r r' : PoolRegistry)
    (hp : r'.pools = r.pools) (hb : r'.pools_by_token = r.pools_by_token)
    (h : r.WeakConsistent) : r'.WeakConsistent := by
  obtain ⟨h1, h2⟩ := h
  constructor
  · intro t ids id hl hm
    rw [hb] at hl
    obtain ⟨p, hp'⟩ := h1 t ids id hl hm
    exact ⟨p, by rw [hp]; exact hp'⟩
  · intro id p t hl ht
    rw [hp] at hl
    obtain ⟨ids, hl', hm⟩ := h2 id p t hl ht
    exact ⟨ids, by rw [hb]; exact hl', hm⟩

theorem upgrade_one_weak (r : PoolRegistry) (k : H256) (p : RegisteredPool)
    (h : r.WeakConsistent) : (r.upgrade_one k p).WeakConsistent := by
  obtain ⟨h1, h2⟩ := h
  constructor
  · intro t ids id hl hm
    by_cases hk : id = k
    · subst hk
      exact ⟨p, alookup_aupd_self _ _ _⟩
    · have hb : r.in_bucket t id :=
        (bucket_add_other k r.pools_by_token p.tokens t id hk).mp ⟨ids, hl, hm⟩
      obtain ⟨ids₀, hl₀, hm₀⟩ := hb
      obtain ⟨q, hq⟩ := h1 t ids₀ id hl₀ hm₀
      exact ⟨q, by rw [show (r.upgrade_one k p).pools = aupd r.pools k p
        from rfl, alookup_aupd_ne _ _ _ _ (fun he => hk he.symm)]; exact hq⟩
  · intro id q t hl ht
    by_cases hk : k = id
    · subst hk
      rw [show (r.upgrade_one k p).pools = aupd r.pools k p from rfl] at hl
      rw [alookup_aupd_self] at hl
      have hq : p = q := by injection hl
      subst hq
      exact bucket_add_mem_self _ _ _ _ ht
    · rw [show (r.upgrade_one k p).pools = aupd r.pools k p from rfl,
        alookup_aupd_ne _ _ _ _ hk] at hl
      exact bucket_add_mono _ _ _ _ _ (h2 id q t hl ht)

theorem try_upgrade_go_weak (l : List (H256 × WeightedPoolBuilder))
    (r : PoolRegistry) (h : r.WeakConsistent) :
    (r.try_upgrade_go l).1.WeakConsistent := by
  induction l generalizing r with
  | nil => exact h
  | cons kb rest ih =>
    obtain ⟨k, b⟩ := kb
    cases hb : b.into_pool with
    | none => simpa [PoolRegistry.try_upgrade_go, hb] using h
    | some p =>
      simp only [PoolRegistry.try_upgrade_go, hb]
      exact ih _ (upgrade_one_weak _ _ _ h)

theorem try_upgrade_go_pools_nodup (l : List (H256 × WeightedPoolBuilder))
    (r : PoolRegistry) (h : (akeys r.pools).Nodup) :
    (akeys (r.try_upgrade_go l).1.pools).Nodup := by
  induction l generalizing r with
  | nil => exact h
  | cons kb rest ih =>
    obtain ⟨k, b⟩ := kb
    cases hb : b.into_pool with
    | none => simpa [PoolRegistry.try_upgrade_go, hb] using h
    | some p =>
      simp only [PoolRegistry.try_upgrade_go, hb]
      exact ih _ (akeys_aupd_nodup _ _ _ h)

theorem insert_events_weak (r : PoolRegistry)
    (events : List (EventIndex × BalancerEvent)) (h : r.WeakConsistent) :
    (r.insert_events events).1.WeakConsistent := by
  apply try_upgrade_go_weak
  exact weak_consistent_of_fields_eq r _ (fold_events_pools r events)
    (fold_events_buckets r events) h

theorem insert_events_pools_nodup (r : PoolRegistry)
    (events : List (EventIndex × BalancerEvent))
    (h : (akeys r.pools).Nodup) :
    (akeys (r.insert_events events).1.pools).Nodup := by
  apply try_upgrade_go_pools_nodup
  rw [fold_events_pools]
  exact h

theorem delete_pools_weak (r : PoolRegistry) (bn : Nat)
    (hnd : (akeys r.pools).Nodup) (h : r.WeakConsistent) :
    (r.delete_pools bn).WeakConsistent := by
  obtain ⟨h1, h2⟩ := h
  constructor
  · intro t ids id hl hm
    rw [delete_pools_bucket_lookup] at hl
    cases hcase : alookup r.pools_by_token t with
    | none => rw [hcase] at hl; exact Option.noConfusion hl
    | some ids₀ =>
      rw [hcase] at hl
      have hids : ids₀.filter
          (fun id => id ∈ akeys (r.delete_pools bn).pools) = ids := by
        injection hl
      rw [← hids] at hm
      have hmem : id ∈ akeys (r.delete_pools bn).pools := by
        simpa using List.of_mem_filter hm
      exact alookup_isSome_of_mem_akeys _ _ hmem
  · intro id p t hl ht
    have hr : alookup r.pools id = some p ∧ p.block_created < bn := by
      rw [delete_pools_pools_lookup _ _ _ hnd] at hl
      cases hcase : alookup r.pools id with
      | none => rw [hcase] at hl; exact Option.noConfusion hl
      | some q =>
        rw [hcase] at hl
        have hl' : (if q.block_created < bn then some q else none) = some p := hl
        by_cases hb : q.block_created < bn
        · rw [if_pos hb] at hl'
          have : q = p := by injection hl'
          subst this
          exact ⟨rfl, hb⟩
        · rw [if_neg hb] at hl'
          exact Option.noConfusion hl'
    obtain ⟨ids₀, hl₀, hm₀⟩ := h2 id p t hr.1 ht
    refine ⟨ids₀.filter (fun id => id ∈ akeys (r.delete_pools bn).pools), ?_, ?_⟩
    · rw [delete_pools_bucket_lookup, hl₀]
      rfl
    · apply List.mem_filter_of_mem hm₀
      simp only [decide_eq_true_eq]
      exact mem_akeys_of_alookup _ _ _ hl

theorem reachable_nodup_weak (r : PoolRegistry) (h : r.Reachable) :
    (akeys r.pools).Nodup ∧ r.WeakConsistent := by
  induction h with
  | empty =>
    refine ⟨List.nodup_nil, ?_, ?_⟩
    · intro t ids id hl
      exact absurd hl (by simp [PoolRegistry.empty, alookup])
    · intro id p t hl
      exact absurd hl (by simp [PoolRegistry.empty, alookup])
  | append r events _ ih =>
    exact ⟨insert_events_pools_nodup r events ih.1,
      insert_events_weak r events ih.2⟩
  | replace r b events _ ih =>
    refine ⟨insert_events_pools_nodup _ events ?_,
      insert_events_weak _ events ?_⟩
    · exact delete_pools_pools_nodup r b ih.1
    · exact delete_pools_weak r b ih.1 ih.2
  | delete r b _ ih =>
    exact ⟨delete_pools_pools_nodup r b ih.1,
      delete_pools_weak r b ih.1 ih.2⟩

theorem omap?_isSome {α β : Type} (f : α → Option β) (l : List α)
    (h : ∀ x ∈ l, (f x).isSome) : ∃ out, omap? f l = some out := by
  induction l with
  | nil => exact ⟨[], rfl⟩
  | cons x xs ih =>
    obtain ⟨y, hy⟩ := Option.isSome_iff_exists.mp (h x (List.mem_cons_self _ _))
    obtain ⟨out, hout⟩ := ih (fun z hz => h z (List.mem_cons_of_mem _ hz))
    exact ⟨y :: out, by simp [omap?, hy, hout]⟩

theorem omap?_mem {α β : Type} (f : α → Option β) (l : List α)
    (out : List β) (h : omap? f l = some out) (x : α) (hx : x ∈ l)
    (y : β) (hy : f x = some y) : y ∈ out := by
  induction l generalizing out with
  | nil => simp at hx
  | cons z zs ih =>
    simp only [omap?] at h
    cases hf : f z with
    | none => rw [hf] at h; exact Option.noConfusion h
    | some w =>
      rw [hf] at h
      cases ho : omap? f zs with
      | none => rw [ho] at h; exact Option.noConfusion h
      | some ws =>
        rw [ho] at h
        have : w :: ws = out := by injection h
        rw [← this]
        rcases List.mem_cons.mp hx with he | hm
        · subst he
          rw [hf] at hy
          have : w = y := by injection hy
          rw [this]
          exact List.mem_cons_self _ _
        · exact List.mem_cons_of_mem _ (ih _ ho hm)

theorem omap?_mem_src {α β : Type} (f : α → Option β) (l : List α)
    (out : List β) (h : omap? f l = some out) (y : β) (hy : y ∈ out) :
    ∃ x ∈ l, f x = some y := by
  induction l generalizing out with
  | nil =>
    have : ([] : List β) = out := by injection h
    rw [← this] at hy
    simp at hy
  | cons z zs ih =>
    simp only [omap?] at h
    cases hf : f z with
    | none => rw [hf] at h; exact Option.noConfusion h
    | some w =>
      rw [hf] at h
      cases ho : omap? f zs with
      | none => rw [ho] at h; exact Option.noConfusion h
      | some ws =>
        rw [ho] at h
        have : w :: ws = out := by injection h
        rw [← this] at hy
        rcases List.mem_cons.mp hy with he | hm
        · subst he
          exact ⟨z, List.mem_cons_self _ _, hf⟩
        · obtain ⟨x, hx, hfx⟩ := ih _ ho hm
          exact ⟨x, List.mem_cons_of_mem _ hx, hfx⟩

/-! ## Claim C1 -/

/-- Claim C1, counterexample: a well-formed batch holding only a
PoolRegistered event makes append_events return an error, while the partial
pool does sit in pending; the claim says no error occurs in this case. -/
theorem append_events_lone_registration_errors :
    (PoolRegistry.empty.append_events ce1_events).2 = false ∧
    alookup (PoolRegistry.empty.append_events ce1_events).1.pending_pools 1 =
      some ⟨some ⟨1, 2, .General⟩, none, 1⟩ := by decide

/-- Claim C1 (amended): append_events succeeds on a well-formed batch exactly
when, after folding the events into pending, every pending partial has both
registrations; on success every such partial is upgraded into pools with
block_created taken from the partial, its pool id is indexed under each of
its tokens, and pending is emptied.  A partial with only one registration
makes the call return an error instead of remaining silently pending. -/
theorem append_events_upgrade_characterization (r : PoolRegistry)
    (events : List (EventIndex × BalancerEvent))
    (hnd : (akeys r.pending_pools).Nodup) :
    ((r.append_events events).2 = true ↔
      ∀ kb ∈ (r.fold_events events).pending_pools,
        (kb.2.into_pool).isSome) ∧
    ((r.append_events events).2 = true →
      (r.append_events events).1.pending_pools = [] ∧
      ∀ id b p, (id, b) ∈ (r.fold_events events).pending_pools →
        b.into_pool = some p →
        alookup (r.append_events events).1.pools id = some p ∧
        p.block_created = b.block_created ∧
        ∀ t ∈ p.tokens, (r.append_events events).1.in_bucket t id) := by
  have hfold : (akeys (r.fold_events events).pending_pools).Nodup :=
    fold_events_pending_nodup r events hnd
  constructor
  · exact try_upgrade_go_flag _ _
  · intro hs
    constructor
    · exact try_upgrade_go_pending_empty _ _ rfl hs
    · intro id b p hmem hp
      obtain ⟨h1, h2⟩ := try_upgrade_go_upgrades _ _ hfold hs id b p hmem hp
      exact ⟨h1, into_pool_block b p hp, h2⟩

/-- Claim C1, witness: the amended characterization applied to a matched
batch, whose upgrade succeeds. -/
theorem append_events_upgrade_characterization_witness :
    (akeys PoolRegistry.empty.pending_pools).Nodup ∧
    (PoolRegistry.empty.append_events ce5_events1).2 = true :=
  ⟨by decide,
    (append_events_upgrade_characterization PoolRegistry.empty ce5_events1
      (by decide)).1.mpr (by decide)⟩

/-! ## Claim C7 -/

/-- Claim C7: a pending partial keeps the block number of the first event
that created it: either insertion kind creates the entry with the block of
its event, later insertions of either kind preserve block_created, and a
pool upgraded out of pending keeps the block_created of its partial. -/
theorem block_created_first_event (r : PoolRegistry) (i : EventIndex)
    (pr : PoolRegistered) (tr : TokensRegistered) :
    (alookup r.pending_pools pr.pool_id = none →
      alookup (r.insert_pool i pr).pending_pools pr.pool_id =
        some ⟨some pr, none, i.block_number⟩) ∧
    (∀ b, alookup r.pending_pools pr.pool_id = some b →
      alookup (r.insert_pool i pr).pending_pools pr.pool_id =
        some ⟨some pr, b.tokens_registration, b.block_created⟩) ∧
    (alookup r.pending_pools tr.pool_id = none →
      alookup (r.insert_token_data i tr).pending_pools tr.pool_id =
        some ⟨none, some tr, i.block_number⟩) ∧
    (∀ b, alookup r.pending_pools tr.pool_id = some b →
      alookup (r.insert_token_data i tr).pending_pools tr.pool_id =
        some ⟨b.pool_registration, some tr, b.block_created⟩) ∧
    (∀ id p, alookup r.try_upgrade.1.pools id = some p →
      alookup r.pools id = some p ∨
        ∃ b, (id, b) ∈ r.pending_pools ∧ b.into_pool = some p ∧
          p.block_created = b.block_created) := by
  refine ⟨?_, ?_, ?_, ?_, ?_⟩
  · intro h
    simp [PoolRegistry.insert_pool, h, alookup_aupd_self]
  · intro b h
    simp [PoolRegistry.insert_pool, h, alookup_aupd_self]
  · intro h
    simp [PoolRegistry.insert_token_data, h, alookup_aupd_self]
  · intro b h
    simp [PoolRegistry.insert_token_data, h, alookup_aupd_self]
  · intro id p h
    rcases try_upgrade_go_pools_origin _ _ _ _ h with h' | h'
    · exact Or.inl h'
    · obtain ⟨b, hm, hp⟩ := h'
      exact Or.inr ⟨b, hm, hp, into_pool_block b p hp⟩

/-- Claim C7, witness: the first-creation rule applied to a concrete
registry: a TokensRegistered event at block 9 does not update the
block_created of the partial created at block 1. -/
theorem block_created_first_event_witness :
    alookup (PoolRegistry.empty.insert_pool ⟨1, 0⟩
        ⟨1, 2, .General⟩).pending_pools 1 =
      some ⟨some ⟨1, 2, .General⟩, none, 1⟩ ∧
    alookup ((PoolRegistry.empty.insert_pool ⟨1, 0⟩
        ⟨1, 2, .General⟩).insert_token_data ⟨9, 0⟩
        ⟨1, [10]⟩).pending_pools 1 =
      some ⟨some ⟨1, 2, .General⟩, some ⟨1, [10]⟩, 1⟩ :=
  ⟨(block_created_first_event PoolRegistry.empty ⟨1, 0⟩
      ⟨1, 2, .General⟩ ⟨1, [10]⟩).1 (by decide),
   (block_created_first_event (PoolRegistry.empty.insert_pool ⟨1, 0⟩
      ⟨1, 2, .General⟩) ⟨9, 0⟩ ⟨1, 2, .General⟩ ⟨1, [10]⟩).2.2.2.1
      ⟨some ⟨1, 2, .General⟩, none, 1⟩ (by decide)⟩

/-! ## Claim C5 -/

/-- Claim C5, counterexample: re-registering a pool id with a smaller token
set leaves a stale bucket entry, so the claimed invariant (a bucket entry
implies the token is among the pool tokens) fails in a reachable state. -/
theorem registry_consistency_violation :
    PoolRegistry.Reachable ce5_r2 ∧ ¬ ce5_r2.Consistent := by
  constructor
  · exact PoolRegistry.Reachable.append ce5_r1 ce5_events2
      (PoolRegistry.Reachable.append PoolRegistry.empty ce5_events1
        PoolRegistry.Reachable.empty)
  · intro hcon
    obtain ⟨h1, _⟩ := hcon
    obtain ⟨p, hp, ht⟩ := h1 11 [1] 1 (by decide) (by decide)
    rw [show alookup ce5_r2.pools 1 =
      some ⟨1, 7, .General, [10], 2⟩ from by decide] at hp
    have hpe : (⟨1, 7, .General, [10], 2⟩ : RegisteredPool) = p := by
      injection hp
    rw [← hpe] at ht
    exact absurd ht (by decide)

/-- Claim C5 (amended): in every reachable registry state the indexes are
weakly consistent: every pool id in any bucket is a key of pools, and every
pool in pools is reachable through pools_by_token via each of its tokens.
The stronger clause of the claim, that the bucket token is always among the
pool tokens, fails on re-registration (see the counterexample). -/
theorem reachable_weak_consistent (r : PoolRegistry) (h : r.Reachable) :
    r.WeakConsistent :=
  (reachable_nodup_weak r h).2

/-- Claim C5, witness: weak consistency of a state reached by two appends. -/
theorem reachable_weak_consistent_witness :
    PoolRegistry.Reachable ce5_r2 ∧ ce5_r2.WeakConsistent :=
  ⟨PoolRegistry.Reachable.append ce5_r1 ce5_events2
      (PoolRegistry.Reachable.append PoolRegistry.empty ce5_events1
        PoolRegistry.Reachable.empty),
   reachable_weak_consistent ce5_r2
     (PoolRegistry.Reachable.append ce5_r1 ce5_events2
       (PoolRegistry.Reachable.append PoolRegistry.empty ce5_events1
         PoolRegistry.Reachable.empty))⟩

/-! ## Claims C6 and C10 -/

theorem pcp_lookup_some (r : PoolRegistry) (tp : TokenPair)
    (h1 : ∀ t ids id, alookup r.pools_by_token t = some ids → id ∈ ids →
      ∃ p, alookup r.pools id = some p ∧ t ∈ p.tokens) :
    ∃ out, r.pools_containing_pair tp = some out := by
  apply omap?_isSome
  intro id hid
  have hid0 : id ∈ (alookup r.pools_by_token tp.get.1).getD [] :=
    List.mem_of_mem_filter hid
  cases hcase : alookup r.pools_by_token tp.get.1 with
  | none =>
    rw [hcase] at hid0
    simp at hid0
  | some ids₀ =>
    rw [hcase] at hid0
    obtain ⟨p, hp, _⟩ := h1 _ _ _ hcase (by simpa using hid0)
    simp [hp]

/-- Claim C6: under the index-consistency invariant,
pools_containing_pair returns exactly the registered pools containing both
tokens of the pair. -/
theorem pools_containing_pair_correct (r : PoolRegistry) (tp : TokenPair)
    (h : r.Consistent) :
    ∃ l, r.pools_containing_pair tp = some l ∧
      ∀ p, p ∈ l ↔ ((∃ id, alookup r.pools id = some p) ∧
        tp.fst ∈ p.tokens ∧ tp.snd ∈ p.tokens) := by
  obtain ⟨h1, h2⟩ := h
  obtain ⟨out, hout⟩ := pcp_lookup_some r tp h1
  refine ⟨out, hout, ?_⟩
  intro p
  constructor
  · intro hp
    obtain ⟨id, hid, hlook⟩ := omap?_mem_src _ _ _ hout p hp
    have hid0 : id ∈ (alookup r.pools_by_token tp.get.1).getD [] :=
      List.mem_of_mem_filter hid
    have hid1 : id ∈ (alookup r.pools_by_token tp.get.2).getD [] := by
      have := List.of_mem_filter hid
      simpa using this
    have hfst : tp.fst ∈ p.tokens := by
      cases hcase : alookup r.pools_by_token tp.get.1 with
      | none => rw [hcase] at hid0; simp at hid0
      | some ids₀ =>
        rw [hcase] at hid0
        obtain ⟨q, hq, htq⟩ := h1 _ _ _ hcase (by simpa using hid0)
        rw [hlook] at hq
        have : p = q := by injection hq
        rw [this]
        exact htq
    have hsnd : tp.snd ∈ p.tokens := by
      cases hcase : alookup r.pools_by_token tp.get.2 with
      | none => rw [hcase] at hid1; simp at hid1
      | some ids₁ =>
        rw [hcase] at hid1
        obtain ⟨q, hq, htq⟩ := h1 _ _ _ hcase (by simpa using hid1)
        rw [hlook] at hq
        have : p = q := by injection hq
        rw [this]
        exact htq
    exact ⟨⟨id, hlook⟩, hfst, hsnd⟩
  · rintro ⟨⟨id, hid⟩, hfst, hsnd⟩
    obtain ⟨ids₀, hl₀, hm₀⟩ := h2 id p tp.fst hid hfst
    obtain ⟨ids₁, hl₁, hm₁⟩ := h2 id p tp.snd hid hsnd
    apply omap?_mem _ _ _ hout id _ p hid
    apply List.mem_filter_of_mem
    · show id ∈ (alookup r.pools_by_token tp.get.1).getD []
      rw [show tp.get.1 = tp.fst from rfl, hl₀]
      simpa using hm₀
    · show decide (id ∈ (alookup r.pools_by_token tp.get.2).getD []) = true
      rw [show tp.get.2 = tp.snd from rfl, hl₁]
      simpa using hm₁

theorem ce6_r_consistent : ce6_r.Consistent := by
  constructor
  · intro t ids id hl hm
    have hl' : (if (10 : H160) = t then some [(1 : H256)]
        else if (11 : H160) = t then some [1] else none) = some ids := hl
    by_cases h10 : (10 : H160) = t
    · rw [if_pos h10] at hl'
      have : [(1 : H256)] = ids := by injection hl'
      rw [← this] at hm
      have : id = 1 := by simpa using hm
      subst this
      subst h10
      exact ⟨⟨1, 7, .General, [10, 11], 1⟩, by decide, by decide⟩
    · rw [if_neg h10] at hl'
      by_cases h11 : (11 : H160) = t
      · rw [if_pos h11] at hl'
        have : [(1 : H256)] = ids := by injection hl'
        rw [← this] at hm
        have : id = 1 := by simpa using hm
        subst this
        subst h11
        exact ⟨⟨1, 7, .General, [10, 11], 1⟩, by decide, by decide⟩
      · rw [if_neg h11] at hl'
        exact Option.noConfusion hl'
  · intro id p t hl ht
    have hl' : (if (1 : H256) = id then
        some (⟨1, 7, .General, [10, 11], 1⟩ : RegisteredPool)
        else none) = some p := hl
    by_cases h1 : (1 : H256) = id
    · rw [if_pos h1] at hl'
      have hp : (⟨1, 7, .General, [10, 11], 1⟩ : RegisteredPool) = p := by
        injection hl'
      rw [← hp] at ht
      subst h1
      rcases List.mem_cons.mp ht with he | hm
      · subst he
        exact ⟨[1], by decide, by decide⟩
      · have : t = 11 := by simpa using hm
        subst this
        exact ⟨[1], by decide, by decide⟩
    · rw [if_neg h1] at hl'
      exact Option.noConfusion hl'

/-- Claim C6, witness: the query on a small consistent registry returns
exactly its one pool for the pair of its two tokens. -/
theorem pools_containing_pair_correct_witness :
    ce6_r.Consistent ∧
    ∃ l, ce6_r.pools_containing_pair ⟨10, 11⟩ = some l ∧
      ∀ p, p ∈ l ↔ ((∃ id, alookup ce6_r.pools id = some p) ∧
        (10 : H160) ∈ p.tokens ∧ (11 : H160) ∈ p.tokens) :=
  ⟨ce6_r_consistent,
   pools_containing_pair_correct ce6_r ⟨10, 11⟩ ce6_r_consistent⟩

/-- Claim C10: under the index-consistency invariant the query is total:
the internal pool lookups always succeed (no panic), and a token without a
bucket entry contributes the empty set, so the result is some empty list. -/
theorem pools_containing_pair_total (r : PoolRegistry) (tp : TokenPair)
    (h : r.Consistent) :
    (r.pools_containing_pair tp).isSome ∧
    (alookup r.pools_by_token tp.fst = none →
      r.pools_containing_pair tp = some []) ∧
    (alookup r.pools_by_token tp.snd = none →
      r.pools_containing_pair tp = some []) := by
  refine ⟨?_, ?_, ?_⟩
  · obtain ⟨out, hout⟩ := pcp_lookup_some r tp h.1
    rw [hout]
    rfl
  · intro hnone
    show omap? _ _ = some []
    rw [show tp.get.1 = tp.fst from rfl, hnone]
    rfl
  · intro hnone
    show omap? _ ((((alookup r.pools_by_token tp.get.1).getD []).filter
      (fun id => id ∈ (alookup r.pools_by_token tp.get.2).getD []))) = some []
    rw [show tp.get.2 = tp.snd from rfl, hnone]
    rw [show ((alookup r.pools_by_token tp.get.1).getD []).filter
        (fun id => decide (id ∈ ((none : Option (List H256)).getD []))) = []
      from List.filter_eq_nil_iff.mpr (fun a _ => by simp)]
    rfl

/-- Claim C10, witness: totality applied to the small consistent registry,
also on a pair whose tokens have no bucket at all. -/
theorem pools_containing_pair_total_witness :
    ce6_r.Consistent ∧
    (ce6_r.pools_containing_pair ⟨10, 11⟩).isSome ∧
    (alookup ce6_r.pools_by_token (20 : H160) = none →
      ce6_r.pools_containing_pair ⟨20, 21⟩ = some []) :=
  ⟨ce6_r_consistent,
   (pools_containing_pair_total ce6_r ⟨10, 11⟩ ce6_r_consistent).1,
   fun h => (pools_containing_pair_total ce6_r ⟨20, 21⟩ ce6_r_consistent).2.1 h⟩

/-! ## Claim C2 -/

/-- Claim C2, counterexample: replace_events(5, E) where E re-registers the
pool id of a pool created at block 1 overwrites that pool, so a pool with
block_created below the cutoff is not left unchanged. -/
theorem replace_events_old_pool_overwritten :
    alookup ce2_r.pools 1 = some ⟨1, 7, .General, [10], 1⟩ ∧
    (1 : Nat) < 5 ∧
    alookup (ce2_r.replace_events 5 ce2_new_events).1.pools 1 ≠
      some ⟨1, 7, .General, [10], 1⟩ := by decide

/-- Claim C2 (amended): for a registry with unique pool keys and no leftover
pending partials (the state after every successful operation),
replace_events(B, E) deletes exactly the pools with block_created at least B
and scrubs their ids from every bucket, then re-applies E; every pool with
block_created below B whose pool id is not mentioned by E is left unchanged,
keeps its reachability through pools_by_token, and the only pools that
change are those whose pool id occurs in E. -/
theorem replace_events_frame (r : PoolRegistry) (bn : Nat)
    (events : List (EventIndex × BalancerEvent))
    (hnd : (akeys r.pools).Nodup) (hpend : r.pending_pools = []) :
    (∀ id p, alookup r.pools id = some p → bn ≤ p.block_created →
      alookup (r.delete_pools bn).pools id = none ∧
      (∀ t ids, alookup (r.delete_pools bn).pools_by_token t = some ids →
        id ∉ ids) ∧
      (id ∉ event_pool_ids events →
        alookup (r.replace_events bn events).1.pools id = none ∧
        ∀ t ids,
          alookup (r.replace_events bn events).1.pools_by_token t = some ids →
          id ∉ ids)) ∧
    (∀ id p, alookup r.pools id = some p → p.block_created < bn →
      alookup (r.delete_pools bn).pools id = some p ∧
      (id ∉ event_pool_ids events →
        alookup (r.replace_events bn events).1.pools id = some p) ∧
      (∀ t, r.in_bucket t id →
        (r.replace_events bn events).1.in_bucket t id)) ∧
    (∀ id, id ∉ event_pool_ids events →
      alookup (r.replace_events bn events).1.pools id =
        alookup (r.delete_pools bn).pools id ∧
      alookup (r.replace_events bn events).1.pending_pools id = none) := by
  have hrdpend : (r.delete_pools bn).pending_pools = [] := by
    show (r.pending_pools.filter _) = []
    rw [hpend]
    rfl
  have hkeys : ∀ k, k ∈ akeys ((r.delete_pools bn).fold_events
      events).pending_pools → k ∈ event_pool_ids events := by
    intro k hk
    rcases fold_events_pending_keys _ _ _ hk with h' | h'
    · rw [hrdpend] at h'
      simp [akeys] at h'
    · exact h'
  have hframe_pools : ∀ id, id ∉ event_pool_ids events →
      alookup (r.replace_events bn events).1.pools id =
        alookup (r.delete_pools bn).pools id := by
    intro id hid
    show alookup (((r.delete_pools bn).fold_events events).try_upgrade_go
      _).1.pools id = _
    rw [try_upgrade_go_pools_frame _ _ _ (fun hm => hid (hkeys _ hm)),
      fold_events_pools]
  have hframe_pending : ∀ id, id ∉ event_pool_ids events →
      alookup (r.replace_events bn events).1.pending_pools id = none := by
    intro id hid
    show alookup (((r.delete_pools bn).fold_events events).try_upgrade_go
      _).1.pending_pools id = none
    rw [try_upgrade_go_pending_frame _ _ _ (fun hm => hid (hkeys _ hm)),
      fold_events_pending_frame _ _ _ hid, hrdpend]
    rfl
  have hbucket_iff : ∀ id, id ∉ event_pool_ids events → ∀ t,
      (r.replace_events bn events).1.in_bucket t id ↔
        (r.delete_pools bn).in_bucket t id := by
    intro id hid t
    show (((r.delete_pools bn).fold_events events).try_upgrade_go
      _).1.in_bucket t id ↔ _
    rw [try_upgrade_go_bucket_other _ _ _ _ (fun hm => hid (hkeys _ hm))]
    show (∃ ids, alookup ((r.delete_pools bn).fold_events
      events).pools_by_token t = some ids ∧ id ∈ ids) ↔ _
    rw [fold_events_buckets]
    exact Iff.rfl
  refine ⟨?_, ?_, ?_⟩
  · intro id p hp hb
    have ha1 : alookup (r.delete_pools bn).pools id = none := by
      rw [delete_pools_pools_lookup _ _ _ hnd, hp]
      have hl' : (if p.block_created < bn then some p else none) = none := by
        rw [if_neg (Nat.not_lt.mpr hb)]
      exact hl'
    have ha2 : ∀ t ids,
        alookup (r.delete_pools bn).pools_by_token t = some ids →
        id ∉ ids := by
      intro t ids hl hm
      rw [delete_pools_bucket_lookup] at hl
      cases hcase : alookup r.pools_by_token t with
      | none => rw [hcase] at hl; exact Option.noConfusion hl
      | some ids₀ =>
        rw [hcase] at hl
        have hids : ids₀.filter
            (fun id => id ∈ akeys (r.delete_pools bn).pools) = ids := by
          injection hl
        rw [← hids] at hm
        have hmem : id ∈ akeys (r.delete_pools bn).pools := by
          simpa using List.of_mem_filter hm
        obtain ⟨v, hv⟩ := alookup_isSome_of_mem_akeys _ _ hmem
        rw [ha1] at hv
        exact Option.noConfusion hv
    refine ⟨ha1, ha2, ?_⟩
    intro hid
    refine ⟨by rw [hframe_pools id hid]; exact ha1, ?_⟩
    intro t ids hl hm
    have : (r.replace_events bn events).1.in_bucket t id := ⟨ids, hl, hm⟩
    rw [hbucket_iff id hid t] at this
    obtain ⟨ids', hl', hm'⟩ := this
    exact ha2 t ids' hl' hm'
  · intro id p hp hb
    have hb1 : alookup (r.delete_pools bn).pools id = some p := by
      rw [delete_pools_pools_lookup _ _ _ hnd, hp]
      have hl' : (if p.block_created < bn then some p else none) = some p := by
        rw [if_pos hb]
      exact hl'
    refine ⟨hb1, fun hid => by rw [hframe_pools id hid]; exact hb1, ?_⟩
    intro t hbk
    obtain ⟨ids₀, hl₀, hm₀⟩ := hbk
    have hrd : (r.delete_pools bn).in_bucket t id := by
      refine ⟨ids₀.filter
        (fun id => id ∈ akeys (r.delete_pools bn).pools), ?_, ?_⟩
      · rw [delete_pools_bucket_lookup, hl₀]
        rfl
      · apply List.mem_filter_of_mem hm₀
        simp only [decide_eq_true_eq]
        exact mem_akeys_of_alookup _ _ _ hb1
    show (((r.delete_pools bn).fold_events events).try_upgrade_go
      _).1.in_bucket t id
    apply try_upgrade_go_bucket_mono
    show (((r.delete_pools bn).fold_events events)).in_bucket t id
    obtain ⟨ids', hl', hm'⟩ := hrd
    refine ⟨ids', ?_, hm'⟩
    rw [show ((r.delete_pools bn).fold_events events).pools_by_token =
      (r.delete_pools bn).pools_by_token from fold_events_buckets _ _]
    exact hl'
  · intro id hid
    exact ⟨hframe_pools id hid, hframe_pending id hid⟩

/-- Claim C2, witness: the frame theorem applied to a one-pool registry with
cutoff 1 and no replacement events: the pool at block 1 is deleted and its
id scrubbed from every bucket. -/
theorem replace_events_frame_witness :
    (akeys ce2_r.pools).Nodup ∧ ce2_r.pending_pools = [] ∧
    (alookup (ce2_r.delete_pools 1).pools 1 = none ∧
      (∀ t ids, alookup (ce2_r.delete_pools 1).pools_by_token t = some ids →
        1 ∉ ids) ∧
      ((1 : H256) ∉ event_pool_ids [] →
        alookup (ce2_r.replace_events 1 []).1.pools 1 = none ∧
        ∀ t ids,
          alookup (ce2_r.replace_events 1 []).1.pools_by_token t = some ids →
          1 ∉ ids)) :=
  ⟨by decide, by decide,
    (replace_events_frame ce2_r 1 [] (by decide) (by decide)).1 1
      ⟨1, 7, PoolSpecialization.General, [10], 1⟩ (by decide) (by decide)⟩

/-! ## Order book lemmas -/

theorem add_order_ok_inv (validate_signature : OrderCreation → Option H160)
    (uid_of : OrderCreation → H160 → Nat) (t : Nat) (book : List Order)
    (o : OrderCreation) (book' : List Order) (u : Nat)
    (h : add_order validate_signature uid_of t book o = (book', .ok u)) :
    t < o.valid_to ∧
    book.any (fun x => x.order_creation = o) = false ∧
    ∃ owner, validate_signature o = some owner ∧ u = uid_of o owner ∧
      book' = book ++ [⟨⟨t, owner, uid_of o owner⟩, o⟩] := by
  unfold add_order at h
  by_cases hf : has_future_valid_to t o
  · rw [hf] at h
    simp only [Bool.not_true, Bool.false_eq_true, if_false] at h
    by_cases hd : book.any (fun x => x.order_creation = o)
    · rw [if_pos hd] at h
      exact absurd (congrArg Prod.snd h) (by simp)
    · rw [if_neg hd] at h
      cases hs : validate_signature o with
      | none =>
        rw [show order_creation_to_order validate_signature uid_of t o =
          .error .InvalidSignature from by
            simp [order_creation_to_order, hs]] at h
        exact absurd (congrArg Prod.snd h) (by simp)
      | some owner =>
        rw [show order_creation_to_order validate_signature uid_of t o =
          .ok ⟨⟨t, owner, uid_of o owner⟩, o⟩ from by
            simp [order_creation_to_order, hs]] at h
        have hb : book ++ [⟨⟨t, owner, uid_of o owner⟩, o⟩] = book' :=
          congrArg Prod.fst h
        have hu : u = uid_of o owner := by
          have := congrArg Prod.snd h
          simp only at this
          have := this.symm
          injection this
        refine ⟨by simpa [has_future_valid_to] using hf,
          by simpa using hd, owner, rfl, hu, hb.symm⟩
  · rw [show has_future_valid_to t o = false from by simpa using hf] at h
    simp only [Bool.not_false, if_true] at h
    exact absurd (congrArg Prod.snd h) (by simp)

theorem perm_getLast_cons_dropLast {α : Type} (l : List α) (hne : l ≠ []) :
    l.Perm (l.getLast hne :: l.dropLast) := by
  conv_lhs => rw [← List.dropLast_append_getLast hne]
  exact List.perm_append_comm

theorem swapRemove_zero_perm {α : Type} (b : α) (rest : List α) :
    rest.Perm (swapRemove (b :: rest) 0) := by
  induction rest using List.reverseRecOn with
  | nil => simp [swapRemove]
  | append_singleton ys y _ =>
    have hlast : (b :: (ys ++ [y])).getLast? = some y := by
      rw [show b :: (ys ++ [y]) = (b :: ys) ++ [y] from rfl]
      exact List.getLast?_concat _
    have hsw : swapRemove (b :: (ys ++ [y])) 0 =
        ((b :: (ys ++ [y])).set 0 y).dropLast := by
      rw [swapRemove, hlast]
    rw [hsw]
    have hset : (b :: (ys ++ [y])).set 0 y = y :: (ys ++ [y]) := rfl
    rw [hset]
    have hdrop : (y :: (ys ++ [y])).dropLast = y :: ys := by
      rw [show y :: (ys ++ [y]) = (y :: ys) ++ [y] from by simp]
      exact List.dropLast_concat
    rw [hdrop]
    exact List.perm_append_comm

theorem swapRemove_cons_succ {α : Type} (b : α) (rest : List α) (i : Nat)
    (hne : rest ≠ []) :
    swapRemove (b :: rest) (i + 1) = b :: swapRemove rest i := by
  induction rest using List.reverseRecOn with
  | nil => exact absurd rfl hne
  | append_singleton ys y _ =>
    have hlast1 : (b :: (ys ++ [y])).getLast? = some y := by
      rw [show b :: (ys ++ [y]) = (b :: ys) ++ [y] from rfl]
      exact List.getLast?_concat _
    have hlast2 : (ys ++ [y]).getLast? = some y := List.getLast?_concat _
    have h1 : swapRemove (b :: (ys ++ [y])) (i + 1) =
        ((b :: (ys ++ [y])).set (i + 1) y).dropLast := by
      rw [swapRemove, hlast1]
    have h2 : swapRemove (ys ++ [y]) i = ((ys ++ [y]).set i y).dropLast := by
      rw [swapRemove, hlast2]
    rw [h1, h2]
    have hset : (b :: (ys ++ [y])).set (i + 1) y =
        b :: (ys ++ [y]).set i y := rfl
    rw [hset]
    have hne2 : (ys ++ [y]).set i y ≠ [] := by
      intro he
      have := congrArg List.length he
      simp at this
    obtain ⟨z, zs, hz⟩ := List.exists_cons_of_ne_nil hne2
    rw [hz]
    rfl

theorem remove_order_perm (orders : List Order) (o : OrderCreation)
    (orders' : List Order) (h : remove_order orders o = .ok orders') :
    ∃ x, x.order_creation = o ∧ orders.Perm (x :: orders') := by
  induction orders generalizing orders' with
  | nil => simp [remove_order, position] at h
  | cons b rest ih =>
    by_cases hb : b.order_creation = o
    · have hres : remove_order (b :: rest) o =
          .ok (swapRemove (b :: rest) 0) := by
        simp [remove_order, position, hb]
      rw [hres] at h
      have hbk : swapRemove (b :: rest) 0 = orders' := by injection h
      refine ⟨b, hb, ?_⟩
      rw [← hbk]
      exact List.Perm.cons b (swapRemove_zero_perm b rest)
    · cases hpos : position (fun x => x.order_creation = o) rest with
      | none =>
        have : remove_order (b :: rest) o = .error .DoesNotExist := by
          simp [remove_order, position, hb, hpos]
        rw [this] at h
        exact Except.noConfusion h
      | some i =>
        have hne : rest ≠ [] := by
          intro he
          rw [he] at hpos
          simp [position] at hpos
        have hres : remove_order (b :: rest) o =
            .ok (swapRemove (b :: rest) (i + 1)) := by
          simp [remove_order, position, hb, hpos]
        rw [hres] at h
        have hbk : swapRemove (b :: rest) (i + 1) = orders' := by injection h
        rw [swapRemove_cons_succ b rest i hne] at hbk
        have hrec : remove_order rest o = .ok (swapRemove rest i) := by
          simp [remove_order, hpos]
        obtain ⟨x, hx, hperm⟩ := ih _ hrec
        refine ⟨x, hx, ?_⟩
        rw [← hbk]
        exact (List.Perm.cons b hperm).trans (List.Perm.swap x b _)

/-! ## Claim C3 -/

/-- Claim C3: add_order checks PastValidTo, then DuplicatedOrder, then
InvalidSignature, each failing exactly under its own condition (a signature
failure is never reported as DuplicatedOrder); on error the book is
unchanged and on success exactly the submitted order is appended and its
derived uid returned. -/
theorem add_order_admission (validate_signature : OrderCreation → Option H160)
    (uid_of : OrderCreation → H160 → Nat) (now : Nat) (orders : List Order)
    (order : OrderCreation) :
    ((add_order validate_signature uid_of now orders order).2 =
        .error .PastValidTo ↔ order.valid_to ≤ now) ∧
    ((add_order validate_signature uid_of now orders order).2 =
        .error .DuplicatedOrder ↔
      (now < order.valid_to ∧ ∃ x ∈ orders, x.order_creation = order)) ∧
    ((add_order validate_signature uid_of now orders order).2 =
        .error .InvalidSignature ↔
      (now < order.valid_to ∧ (∀ x ∈ orders, x.order_creation ≠ order) ∧
        validate_signature order = none)) ∧
    (∀ e, (add_order validate_signature uid_of now orders order).2 =
        .error e →
      (add_order validate_signature uid_of now orders order).1 = orders) ∧
    (∀ owner, now < order.valid_to →
      (∀ x ∈ orders, x.order_creation ≠ order) →
      validate_signature order = some owner →
      (add_order validate_signature uid_of now orders order).1 =
        orders ++ [⟨⟨now, owner, uid_of order owner⟩, order⟩] ∧
      (add_order validate_signature uid_of now orders order).2 =
        .ok (uid_of order owner)) := by
  by_cases hv : order.valid_to ≤ now
  · have hfut : has_future_valid_to now order = false := by
      simp [has_future_valid_to]
      omega
    have hres : add_order validate_signature uid_of now orders order =
        (orders, .error .PastValidTo) := by
      simp [add_order, hfut]
    rw [hres]
    refine ⟨by simp [hv], ?_, ?_, fun e _ => rfl, ?_⟩
    · constructor
      · intro hcon
        exact absurd hcon (by simp)
      · rintro ⟨h1, _⟩
        omega
    · constructor
      · intro hcon
        exact absurd hcon (by simp)
      · rintro ⟨h1, _⟩
        omega
    · intro owner h1 _ _
      omega
  · have hlt : now < order.valid_to := by omega
    have hfut : has_future_valid_to now order = true := by
      simp [has_future_valid_to]
      omega
    by_cases hdup : ∃ x ∈ orders, x.order_creation = order
    · have hany : orders.any (fun x => x.order_creation = order) = true := by
        simp only [List.any_eq_true, decide_eq_true_eq]
        exact hdup
      have hres : add_order validate_signature uid_of now orders order =
          (orders, .error .DuplicatedOrder) := by
        simp [add_order, hfut, hany]
      rw [hres]
      refine ⟨by simp; omega, by simp [hlt, hdup], ?_, fun e _ => rfl, ?_⟩
      · constructor
        · intro hcon
          exact absurd hcon (by simp)
        · rintro ⟨_, hnone, _⟩
          obtain ⟨x, hx, he⟩ := hdup
          exact absurd he (hnone x hx)
      · intro owner _ hnone _
        obtain ⟨x, hx, he⟩ := hdup
        exact absurd he (hnone x hx)
    · have hany : orders.any (fun x => x.order_creation = order) = false := by
        simp only [List.any_eq_false, decide_eq_true_eq]
        intro x hx he
        exact hdup ⟨x, hx, he⟩
      cases hs : validate_signature order with
      | none =>
        have hres : add_order validate_signature uid_of now orders order =
            (orders, .error .InvalidSignature) := by
          simp [add_order, hfut, hany, order_creation_to_order, hs]
        rw [hres]
        refine ⟨by simp; omega, ?_, ?_, fun e _ => rfl, ?_⟩
        · constructor
          · intro hcon
            exact absurd hcon (by simp)
          · rintro ⟨_, x, hx, he⟩
            exact absurd ⟨x, hx, he⟩ hdup
        · constructor
          · intro _
            refine ⟨hlt, ?_, rfl⟩
            intro x hx he
            exact hdup ⟨x, hx, he⟩
          · intro _
            rfl
        · intro owner _ _ hso
          exact Option.noConfusion hso
      | some owner =>
        have hres : add_order validate_signature uid_of now orders order =
            (orders ++ [⟨⟨now, owner, uid_of order owner⟩, order⟩],
              .ok (uid_of order owner)) := by
          simp [add_order, hfut, hany, order_creation_to_order, hs]
        rw [hres]
        refine ⟨by simp; omega, ?_, ?_, ?_, ?_⟩
        · constructor
          · intro hcon
            exact absurd hcon (by simp)
          · rintro ⟨_, x, hx, he⟩
            exact absurd ⟨x, hx, he⟩ hdup
        · constructor
          · intro hcon
            exact absurd hcon (by simp)
          · rintro ⟨_, _, hnone⟩
            exact Option.noConfusion hnone
        · intro e he
          exact absurd he (by simp)
        · intro owner' _ _ hso
          have : owner = owner' := by injection hso
          subst this
          exact ⟨rfl, rfl⟩

/-- Claim C3, witness: admission with a stub recoverer succeeds on an empty
book and returns the derived uid. -/
theorem add_order_admission_witness :
    (0 : Nat) < 100 ∧
    (add_order (fun _ => some 9) (fun oc owner => oc.valid_to + owner) 0 []
        ⟨1, 2, 3, 4, 100, 0, 0, .sell, false, 0⟩).1 =
      [⟨⟨0, 9, 109⟩, ⟨1, 2, 3, 4, 100, 0, 0, .sell, false, 0⟩⟩] ∧
    (add_order (fun _ => some 9) (fun oc owner => oc.valid_to + owner) 0 []
        ⟨1, 2, 3, 4, 100, 0, 0, .sell, false, 0⟩).2 = .ok 109 :=
  ⟨by decide,
    (add_order_admission (fun _ => some 9)
      (fun oc owner => oc.valid_to + owner) 0 []
      ⟨1, 2, 3, 4, 100, 0, 0, .sell, false, 0⟩).2.2.2.2 9 (by decide)
      (by simp) rfl⟩

/-! ## Claim C4 -/

/-- Claim C4: an admitted order appears exactly once in the book; the expiry
sweep at time now removes exactly the orders with valid_to at most now, so
an order admitted at time t (which requires valid_to above t) is never swept
at time t; a matching remove deletes the single entry and removing a
different creation leaves the count unchanged. -/
theorem order_book_lifecycle (validate_signature : OrderCreation → Option H160)
    (uid_of : OrderCreation → H160 → Nat) (now t : Nat)
    (book book' : List Order) (o : OrderCreation) (u : Nat) :
    (add_order validate_signature uid_of t book o = (book', .ok u) →
      book'.countP (fun x => x.order_creation = o) = 1) ∧
    (∀ x, x ∈ remove_expired_orders now book ↔
      (x ∈ book ∧ now < x.order_creation.valid_to)) ∧
    (add_order validate_signature uid_of t book o = (book', .ok u) →
      (remove_expired_orders t book').countP
        (fun x => x.order_creation = o) = 1) ∧
    (book.countP (fun x => x.order_creation = o) = 1 →
      ∀ book'', remove_order book o = .ok book'' →
        book''.countP (fun x => x.order_creation = o) = 0) ∧
    (∀ o' book'', o' ≠ o → remove_order book o' = .ok book'' →
      book''.countP (fun x => x.order_creation = o) =
        book.countP (fun x => x.order_creation = o)) := by
  have hcount0 : ∀ (h : add_order validate_signature uid_of t book o =
      (book', .ok u)), book.countP (fun x => x.order_creation = o) = 0 := by
    intro h
    obtain ⟨_, hany, _⟩ := add_order_ok_inv _ _ _ _ _ _ _ h
    rw [List.countP_eq_zero]
    intro x hx
    simp only [List.any_eq_false, decide_eq_true_eq] at hany
    simpa using hany x hx
  have hbook' : ∀ (h : add_order validate_signature uid_of t book o =
      (book', .ok u)), ∃ owner,
      book' = book ++ [⟨⟨t, owner, uid_of o owner⟩, o⟩] ∧ t < o.valid_to := by
    intro h
    obtain ⟨hlt, _, owner, _, _, hb⟩ := add_order_ok_inv _ _ _ _ _ _ _ h
    exact ⟨owner, hb, hlt⟩
  refine ⟨?_, ?_, ?_, ?_, ?_⟩
  · intro h
    obtain ⟨owner, hb, _⟩ := hbook' h
    rw [hb, List.countP_append, hcount0 h]
    simp
  · intro x
    simp [remove_expired_orders, List.mem_filter, has_future_valid_to]
  · intro h
    obtain ⟨owner, hb, hlt⟩ := hbook' h
    rw [hb]
    have hsplit : remove_expired_orders t
        (book ++ [⟨⟨t, owner, uid_of o owner⟩, o⟩]) =
        remove_expired_orders t book ++ [⟨⟨t, owner, uid_of o owner⟩, o⟩] := by
      show List.filter _ _ = _
      rw [List.filter_append]
      congr 1
      simp [has_future_valid_to, hlt]
    rw [hsplit, List.countP_append]
    have hle : (remove_expired_orders t book).countP
        (fun x => x.order_creation = o) ≤
        book.countP (fun x => x.order_creation = o) :=
      List.Sublist.countP_le _ (List.filter_sublist book)
    rw [hcount0 h] at hle
    simp only [Nat.le_zero] at hle
    rw [hle]
    simp
  · intro hone book'' hrem
    obtain ⟨x, hx, hperm⟩ := remove_order_perm book o book'' hrem
    have hc := hperm.countP_eq (fun y => decide (y.order_creation = o))
    have hcc : book.countP (fun y => decide (y.order_creation = o)) =
        book''.countP (fun y => decide (y.order_creation = o)) + 1 := by
      rw [hc, List.countP_cons]
      simp [hx]
    rw [hone] at hcc
    omega
  · intro o' book'' hne hrem
    obtain ⟨x, hx, hperm⟩ := remove_order_perm book o' book'' hrem
    have hxne : (decide (x.order_creation = o)) = false := by
      apply decide_eq_false
      intro he
      exact hne (hx.symm.trans he)
    have hcc : book.countP (fun y => decide (y.order_creation = o)) =
        book''.countP (fun y => decide (y.order_creation = o)) := by
      rw [hperm.countP_eq (fun y => decide (y.order_creation = o)),
        List.countP_cons, hxne]
      simp
    exact hcc.symm

/-- Claim C4, witness: an admitted order is present exactly once, survives
the sweep at its admission time, and is gone after a matching remove. -/
theorem order_book_lifecycle_witness :
    add_order (fun _ => some 9) (fun oc owner => oc.valid_to + owner) 0 []
        ⟨1, 2, 3, 4, 100, 0, 0, .sell, false, 0⟩ =
      ([⟨⟨0, 9, 109⟩, ⟨1, 2, 3, 4, 100, 0, 0, .sell, false, 0⟩⟩], .ok 109) ∧
    ([⟨⟨0, 9, 109⟩, ⟨1, 2, 3, 4, 100, 0, 0, .sell, false, 0⟩⟩] : List Order).countP
      (fun x => x.order_creation = ⟨1, 2, 3, 4, 100, 0, 0, .sell, false, 0⟩) = 1 :=
  ⟨rfl,
    (order_book_lifecycle (fun _ => some 9)
      (fun oc owner => oc.valid_to + owner) 0 0 []
      [⟨⟨0, 9, 109⟩, ⟨1, 2, 3, 4, 100, 0, 0, .sell, false, 0⟩⟩]
      ⟨1, 2, 3, 4, 100, 0, 0, .sell, false, 0⟩ 109).1 rfl⟩

/-! ## String id lemmas for the auction model translation -/

theorem hexChar_inj : ∀ a, a < 16 → ∀ b, b < 16 →
    hexChar a = hexChar b → a = b := by decide

theorem hexDigits_length (w : Nat) : ∀ n, (hexDigits w n).length = w := by
  induction w with
  | zero => intro n; rfl
  | succ w ih =>
    intro n
    simp [hexDigits, ih]

theorem hexDigits_inj (w : Nat) : ∀ a b, a < 16 ^ w → b < 16 ^ w →
    hexDigits w a = hexDigits w b → a = b := by
  induction w with
  | zero =>
    intro a b ha hb _
    simp at ha hb
    omega
  | succ w ih =>
    intro a b ha hb h
    simp only [hexDigits] at h
    obtain ⟨hd, htl⟩ := List.append_inj h
      (by rw [hexDigits_length, hexDigits_length])
    have hc : hexChar (a % 16) = hexChar (b % 16) := by
      injection htl
    have hmod : a % 16 = b % 16 :=
      hexChar_inj _ (Nat.mod_lt _ (by omega)) _ (Nat.mod_lt _ (by omega)) hc
    have hdiva : a / 16 < 16 ^ w := by
      rw [Nat.div_lt_iff_lt_mul (by omega)]
      calc a < 16 ^ (w + 1) := ha
        _ = 16 ^ w * 16 := by rw [Nat.pow_succ]
    have hdivb : b / 16 < 16 ^ w := by
      rw [Nat.div_lt_iff_lt_mul (by omega)]
      calc b < 16 ^ (w + 1) := hb
        _ = 16 ^ w * 16 := by rw [Nat.pow_succ]
    have hdiv : a / 16 = b / 16 := ih _ _ hdiva hdivb hd
    omega

theorem token_to_string_inj (a b : H160) (ha : a < 2 ^ 160)
    (hb : b < 2 ^ 160) (h : token_to_string a = token_to_string b) :
    a = b := by
  have hdata : ('t' :: hexDigits 40 a) = ('t' :: hexDigits 40 b) :=
    congrArg String.data h
  have htl : hexDigits 40 a = hexDigits 40 b := by
    injection hdata
  have hpow : (2 : Nat) ^ 160 = 16 ^ 40 := by norm_num
  exact hexDigits_inj 40 a b (hpow ▸ ha) (hpow ▸ hb) htl

theorem map_hexChar_inj : ∀ l1 l2 : List Nat, (∀ d ∈ l1, d < 16) →
    (∀ d ∈ l2, d < 16) → l1.map hexChar = l2.map hexChar → l1 = l2 := by
  intro l1
  induction l1 with
  | nil =>
    intro l2 _ _ h
    cases l2 with
    | nil => rfl
    | cons c cs => simp at h
  | cons d ds ih =>
    intro l2 h1 h2 h
    cases l2 with
    | nil => simp at h
    | cons c cs =>
      simp only [List.map_cons, List.cons.injEq] at h
      have hd : d = c :=
        hexChar_inj d (h1 d (by simp)) c (h2 c (by simp)) h.1
      have hds : ds = cs :=
        ih cs (fun x hx => h1 x (by simp [hx]))
          (fun x hx => h2 x (by simp [hx])) h.2
      rw [hd, hds]

theorem natStr_ne_zero_str (b : Nat) (hb : b ≠ 0) : natStr b ≠ "0" := by
  intro h
  rw [natStr, if_neg hb] at h
  have hdata : List.map hexChar (Nat.digits 10 b).reverse = ['0'] :=
    congrArg String.data h
  obtain ⟨d, hrev, hchar⟩ : ∃ d, (Nat.digits 10 b).reverse = [d] ∧
      hexChar d = '0' := by
    cases hcase : (Nat.digits 10 b).reverse with
    | nil => rw [hcase] at hdata; simp at hdata
    | cons d ds =>
      rw [hcase] at hdata
      simp only [List.map_cons, List.cons.injEq] at hdata
      cases hds : ds with
      | nil => exact ⟨d, rfl, hdata.1⟩
      | cons e es =>
        rw [hds] at hdata
        simp at hdata
  have hdig : Nat.digits 10 b = [d] := by
    have := congrArg List.reverse hrev
    simpa using this
  have hdlt : d < 10 := Nat.digits_lt_base (by norm_num)
    (by rw [hdig]; simp)
  have hd0 : d = 0 := by
    have : hexChar 0 = '0' := by decide
    exact hexChar_inj d (by omega) 0 (by omega) (by rw [hchar, this])
  have hlast := Nat.getLast_digit_ne_zero 10 hb
  have hnil : Nat.digits 10 b ≠ [] := by rw [hdig]; simp
  have h1 : (Nat.digits 10 b).getLast? =
      some ((Nat.digits 10 b).getLast hnil) :=
    List.getLast?_eq_getLast _ hnil
  have h2 : (Nat.digits 10 b).getLast? = some d := by rw [hdig]; rfl
  have h3 : (Nat.digits 10 b).getLast hnil = d := by
    rw [h1] at h2
    injection h2
  exact hlast (by rw [h3, hd0])

theorem natStr_inj (a b : Nat) (h : natStr a = natStr b) : a = b := by
  by_cases ha : a = 0
  · by_cases hbz : b = 0
    · rw [ha, hbz]
    · subst ha
      rw [show natStr 0 = "0" from rfl] at h
      exact absurd h.symm (natStr_ne_zero_str b hbz)
  · by_cases hbz : b = 0
    · subst hbz
      rw [show natStr 0 = "0" from rfl] at h
      exact absurd h (natStr_ne_zero_str a ha)
    · rw [natStr, if_neg ha, natStr, if_neg hbz] at h
      have hdata := congrArg String.data h
      simp only at hdata
      have hrev : (Nat.digits 10 a).reverse = (Nat.digits 10 b).reverse :=
        map_hexChar_inj _ _
          (fun d hd => by
            have : d < 10 := Nat.digits_lt_base (by norm_num)
              (List.mem_reverse.mp hd)
            omega)
          (fun d hd => by
            have : d < 10 := Nat.digits_lt_base (by norm_num)
              (List.mem_reverse.mp hd)
            omega)
          hdata
      have hdig : Nat.digits 10 a = Nat.digits 10 b := by
        have := congrArg List.reverse hrev
        simpa using this
      calc a = Nat.ofDigits 10 (Nat.digits 10 a) :=
          (Nat.ofDigits_digits 10 a).symm
        _ = Nat.ofDigits 10 (Nat.digits 10 b) := by rw [hdig]
        _ = b := Nat.ofDigits_digits 10 b

theorem alookup_enumerate_from {α : Type} (l : List α) :
    ∀ i j, alookup (enumerate_from i l) (natStr (i + j)) = l[j]? := by
  induction l with
  | nil => intro i j; simp [enumerate_from, alookup]
  | cons x xs ih =>
    intro i j
    cases j with
    | zero => simp [enumerate_from, alookup]
    | succ j' =>
      have hne : natStr i ≠ natStr (i + (j' + 1)) := by
        intro he
        have := natStr_inj _ _ he
        omega
      simp only [enumerate_from, alookup, if_neg hne]
      have : i + (j' + 1) = (i + 1) + j' := by omega
      rw [this, ih]
      simp

theorem akeys_enumerate_ge {α : Type} (l : List α) :
    ∀ i k, k ∈ akeys (enumerate_from i l) → ∃ j, i ≤ j ∧ k = natStr j := by
  induction l with
  | nil => intro i k h; simp [enumerate_from, akeys] at h
  | cons x xs ih =>
    intro i k h
    rcases List.mem_cons.mp
      (show k ∈ natStr i :: akeys (enumerate_from (i + 1) xs) from h) with
      he | hm
    · exact ⟨i, Nat.le_refl i, he⟩
    · obtain ⟨j, hj, he⟩ := ih (i + 1) k hm
      exact ⟨j, by omega, he⟩

theorem akeys_enumerate_nodup {α : Type} (l : List α) :
    ∀ i, (akeys (enumerate_from i l)).Nodup := by
  induction l with
  | nil => intro i; simp [enumerate_from, akeys]
  | cons x xs ih =>
    intro i
    show (natStr i :: akeys (enumerate_from (i + 1) xs)).Nodup
    rw [List.nodup_cons]
    constructor
    · intro hm
      obtain ⟨j, hj, he⟩ := akeys_enumerate_ge xs (i + 1) (natStr i) hm
      have := natStr_inj _ _ he
      omega
    · exact ih (i + 1)

theorem tokens_map_keys_nodup (liquidity : List Liquidity)
    (htok : ∀ t ∈ liquidity_tokens liquidity, t < 2 ^ 160) :
    (akeys (tokens_map liquidity)).Nodup := by
  have hkeys : akeys (tokens_map liquidity) =
      (liquidity_tokens liquidity).map token_to_string := by
    simp [akeys, tokens_map, List.map_map]
  rw [hkeys]
  apply List.Nodup.map_on
  · intro x hx y hy he
    exact token_to_string_inj x y (htok x hx) (htok y hy) he
  · exact List.nodup_dedup _

/-! ## Claim C8 -/

/-- Claim C8: prepare_model indexes limit orders and AMMs by their insertion
position rendered in decimal and tokens by the letter t followed by the
lowercase hex of the address, and every id occurring in the wire model
resolves through the prepared maps to the very object (with its
settlement-handling capability) the wire entry was produced from. -/
theorem prepare_model_round_trip (liquidity : List Liquidity)
    (htok : ∀ t ∈ liquidity_tokens liquidity, t < 2 ^ 160) :
    (∀ i : Nat, alookup (prepare_model liquidity).limit_orders (natStr i) =
      (split_liquidity liquidity).1[i]?) ∧
    (∀ i : Nat, alookup (prepare_model liquidity).amm_orders (natStr i) =
      (split_liquidity liquidity).2[i]?) ∧
    (∀ id m, (id, m) ∈ (prepare_model liquidity).model.orders →
      ∃ o, alookup (prepare_model liquidity).limit_orders id = some o ∧
        m = order_model_of o) ∧
    (∀ id m, (id, m) ∈ (prepare_model liquidity).model.uniswaps →
      ∃ a, alookup (prepare_model liquidity).amm_orders id = some a ∧
        m = uniswap_model_of a) ∧
    (∀ id info, (id, info) ∈ (prepare_model liquidity).model.tokens →
      ∃ t, alookup (prepare_model liquidity).tokens id = some t ∧
        id = token_to_string t ∧ t ∈ liquidity_tokens liquidity ∧
        info = ⟨18⟩) := by
  refine ⟨?_, ?_, ?_, ?_, ?_⟩
  · intro i
    have := alookup_enumerate_from (split_liquidity liquidity).1 0 i
    rw [Nat.zero_add] at this
    exact this
  · intro i
    have := alookup_enumerate_from (split_liquidity liquidity).2 0 i
    rw [Nat.zero_add] at this
    exact this
  · intro id m hm
    obtain ⟨kv, hkv, he⟩ := List.mem_map.mp hm
    have hid : kv.1 = id := congrArg Prod.fst he
    have hmod : order_model_of kv.2 = m := congrArg Prod.snd he
    refine ⟨kv.2, ?_, hmod.symm⟩
    rw [← hid]
    exact alookup_of_mem_nodup _ _ _ (akeys_enumerate_nodup _ 0)
      (by rw [← Prod.mk.eta (p := kv)] at hkv; exact hkv)
  · intro id m hm
    obtain ⟨kv, hkv, he⟩ := List.mem_map.mp hm
    have hid : kv.1 = id := congrArg Prod.fst he
    have hmod : uniswap_model_of kv.2 = m := congrArg Prod.snd he
    refine ⟨kv.2, ?_, hmod.symm⟩
    rw [← hid]
    exact alookup_of_mem_nodup _ _ _ (akeys_enumerate_nodup _ 0)
      (by rw [← Prod.mk.eta (p := kv)] at hkv; exact hkv)
  · intro id info hm
    obtain ⟨kv, hkv, he⟩ := List.mem_map.mp hm
    have hid : kv.1 = id := congrArg Prod.fst he
    have hinfo : ({ decimals := 18 } : TokenInfoModel) = info :=
      congrArg Prod.snd he
    obtain ⟨t, ht, hkve⟩ := List.mem_map.mp hkv
    have hkv1 : kv.1 = token_to_string t := by rw [← hkve]
    have hkv2 : kv.2 = t := by rw [← hkve]
    refine ⟨t, ?_, by rw [← hid, hkv1], ht, hinfo.symm⟩
    rw [← hid, ← hkv2]
    exact alookup_of_mem_nodup _ _ _ (tokens_map_keys_nodup liquidity htok)
      (by rw [← Prod.mk.eta (p := kv)] at hkv; exact hkv)

/-- Claim C8, witness: the round trip applied to a two-element liquidity
list; position 0 resolves to the original limit order. -/
theorem prepare_model_round_trip_witness :
    (∀ t ∈ liquidity_tokens ce8_liquidity, t < 2 ^ 160) ∧
    alookup (prepare_model ce8_liquidity).limit_orders (natStr 0) =
      (split_liquidity ce8_liquidity).1[0]? :=
  ⟨by decide, (prepare_model_round_trip ce8_liquidity (by decide)).1 0⟩

/-! ## Claim C9 -/

theorem tenderly_link_split_head :
    ("https://dashboard.tenderly.co/gp-v2/staging/simulator/new?block=" :
        String) =
      "https://dashboard.tenderly.co/" ++
        "gp-v2/staging/simulator/new?block=" := by decide

theorem tenderly_link_head (current_block : Nat) (network_id : String)
    (tx : TransactionBuilder) :
    tenderly_link current_block network_id tx =
      "https://dashboard.tenderly.co/" ++
        ("gp-v2/staging/simulator/new?block=" ++
          (natStr current_block ++
            ("&blockIndex=0&from=" ++
              (h160_hex tx.from_address ++
                ("&gas=8000000&gasPrice=0&value=0&contractAddress=" ++
                  (h160_hex tx.to_address ++
                    ("&rawFunctionInput=0x" ++
                      (bytes_hex tx.data ++
                        ("&network=" ++ network_id))))))))) := by
  rw [tenderly_link, tenderly_link_split_head]
  simp only [String.append_assoc]

theorem tenderly_link_block_occurs (current_block : Nat)
    (network_id : String) (tx : TransactionBuilder) :
    tenderly_link current_block network_id tx =
      "https://dashboard.tenderly.co/gp-v2/staging/simulator/new?block=" ++
        natStr current_block ++
        ("&blockIndex=0&from=" ++
          (h160_hex tx.from_address ++
            ("&gas=8000000&gasPrice=0&value=0&contractAddress=" ++
              (h160_hex tx.to_address ++
                ("&rawFunctionInput=0x" ++
                  (bytes_hex tx.data ++
                    ("&network=" ++ network_id))))))) := by
  rw [tenderly_link]
  simp only [String.append_assoc]

/-- Claim C9: simulate_settlements returns one result per input settlement
in input order, and every failed simulation carries a diagnostic URL that is
literally prefixed by https://dashboard.tenderly.co/ and contains the
decimal rendering of the current block number. -/
theorem simulate_settlements_spec
    (settle_method : EncodedSettlement → TransactionBuilder)
    (sim : EncodedSettlement → Bool) (current_block : Nat)
    (network_id : String) (settlements : List EncodedSettlement) :
    (simulate_settlements settle_method sim current_block network_id
      settlements).length = settlements.length ∧
    (∀ (i : Nat) (s : EncodedSettlement), settlements[i]? = some s →
      (simulate_settlements settle_method sim current_block network_id
          settlements)[i]? =
        some (if sim s then (Except.ok () : Except String Unit)
          else Except.error
            (tenderly_link current_block network_id (settle_method s)))) ∧
    (∀ tx : TransactionBuilder, ∃ rest,
      tenderly_link current_block network_id tx =
        "https://dashboard.tenderly.co/" ++ rest) ∧
    (∀ tx : TransactionBuilder, ∃ pre post,
      tenderly_link current_block network_id tx =
        pre ++ natStr current_block ++ post) := by
  refine ⟨?_, ?_, ?_, ?_⟩
  · simp [simulate_settlements]
  · intro i s hs
    simp only [simulate_settlements, List.getElem?_map, hs, Option.map_some]
    rfl
  · intro tx
    exact ⟨_, tenderly_link_head current_block network_id tx⟩
  · intro tx
    exact ⟨_, _, tenderly_link_block_occurs current_block network_id tx⟩

/-- Claim C9, witness: a failing singleton simulation yields one error whose
message starts with the tenderly prefix and mentions block 123. -/
theorem simulate_settlements_spec_witness :
    (([42] : List EncodedSettlement)[0]? = some 42) ∧
    (simulate_settlements (fun _ => ce9_tx) (fun _ => false) 123 "1"
        [42])[0]? =
      some (Except.error (tenderly_link 123 "1" ce9_tx)) ∧
    (∃ rest, tenderly_link 123 "1" ce9_tx =
      "https://dashboard.tenderly.co/" ++ rest) :=
  ⟨rfl,
    (simulate_settlements_spec (fun _ => ce9_tx) (fun _ => false) 123 "1"
      [42]).2.1 0 42 rfl,
    (simulate_settlements_spec (fun _ => ce9_tx) (fun _ => false) 123 "1"
      [42]).2.2.1 ce9_tx⟩
